import Mathlib

/-!
Verification of the pretty_midi core (src/pretty_midi.py) against its
natural-language specification.

The embedding is a shallow one over exact rational arithmetic:

* MIDI event streams are lists of `MidiEvent` values (the parser collaborator
  is out of scope; events arrive with absolute ticks, per the input contract).
* Python floats are modelled by rationals.  numpy int16 storage is modelled by
  integers wrapped through `toInt16`; float-to-int16 casts truncate toward
  zero (`ratTrunc`).
* numpy slice assignment, which raises a ValueError when the right-hand side
  does not match the (clipped) slice length, is modelled by `sliceAssign` and
  friends returning `Option`; fallible Python code (for example `max([])`,
  `np.max([])`, `np.zeros` with a negative dimension) is modelled with
  `Option`, `none` standing for a raised exception.
* The transcendental ingredients of synthesis (np.exp, np.sin composed with
  the irrational frequency 440 * 2 ^ ((pitch - 69) / 12) and with pi) are not
  rational-valued; they are taken as explicit function parameters
  (`envExp`, `noteWave`) of the synthesis definitions, so every theorem below
  quantifies over them.  No claim under study depends on their values.
-/

namespace PMidi

/-- Wrap an integer into the int16 range, as numpy int16 arithmetic does. -/
def toInt16 (z : ℤ) : ℤ := (z + 32768) % 65536 - 32768

/-- Truncation of a rational toward zero, as the Python int() cast and the
numpy float-to-integer casts behave. -/
def ratTrunc (q : ℚ) : ℤ := if 0 ≤ q then ⌊q⌋ else ⌈q⌉

/-- A parsed MIDI event with absolute tick, per the input contract of the
spec: a type tag, a channel where applicable, and type-specific fields.
Pitch-wheel events carry the raw 14-bit-centered value; tempo events carry
the BPM (the collaborator resolves it from the raw bytes). -/
inductive MidiEvent where
  | setTempo (bpm : ℚ) (tick : ℕ)
  | programChange (channel : ℕ) (program : ℕ) (tick : ℕ)
  | noteOn (channel : ℕ) (pitch : ℕ) (velocity : ℕ) (tick : ℕ)
  | noteOff (channel : ℕ) (pitch : ℕ) (velocity : ℕ) (tick : ℕ)
  | pitchWheel (channel : ℕ) (raw : ℤ) (tick : ℕ)
  | other (tick : ℕ)
deriving DecidableEq

/-- Absolute tick of an event (after make_ticks_abs). -/
def MidiEvent.tick : MidiEvent → ℕ
  | .setTempo _ t => t
  | .programChange _ _ t => t
  | .noteOn _ _ _ t => t
  | .noteOff _ _ _ t => t
  | .pitchWheel _ _ t => t
  | .other t => t

/-- One track: an ordered list of events. -/
abbrev Track := List MidiEvent

/-- A note event (class Note): velocity, pitch, start and end in seconds.
The source field named end is a Lean keyword, hence end_. -/
structure Note where
  velocity : ℕ
  pitch : ℕ
  start : ℚ
  end_ : ℚ
deriving DecidableEq

/-- Object holding event information for a single instrument
(class Instrument). -/
structure Instrument where
  program : ℕ
  is_drum : Bool
  events : List Note
  pitch_changes : List (ℚ × ℚ)
deriving DecidableEq

/-- The Set Tempo ticks of a track, in track order; used to state hypotheses
about the tempo events that PrettyMIDI._get_tempo_changes consumes. -/
def tempoTicks (track : Track) : List ℕ :=
  track.filterMap fun e => match e with
    | .setTempo _ t => some t
    | _ => none

/-- One step of the loop of PrettyMIDI._get_tempo_changes (lines 67-78):
a Set Tempo event at tick 0 replaces the whole list; at a positive tick it is
appended only when its tick scale differs from the last one. -/
def tempoStep (res : ℕ) (acc : List (ℕ × ℚ)) (e : MidiEvent) : List (ℕ × ℚ) :=
  match e with
  | .setTempo bpm tick =>
      if tick = 0 then [(0, 60 / (bpm * res))]
      else
        match acc.getLast? with
        | none => acc   -- unreachable: the list is seeded nonempty
        | some (_, lastScale) =>
            let scale := 60 / (bpm * res)
            if scale ≠ lastScale then acc ++ [(tick, scale)] else acc
  | _ => acc

/-- PrettyMIDI._get_tempo_changes: the (tick, tick_scale) breakpoint list
produced from track 0, seeded with the 120 BPM default at tick 0. -/
def tickScalesOf (res : ℕ) (track0 : Track) : List (ℕ × ℚ) :=
  track0.foldl (tempoStep res) [(0, 60 / (120 * res))]

/-- numpy slice assignment a[s:e] = rhs.  The slice bounds are clipped to the
array length; the assignment succeeds only when rhs has exactly the clipped
slice length (otherwise numpy raises, modelled by none). -/
def sliceAssign {α : Type} (a : List α) (s e : ℕ) (rhs : List α) :
    Option (List α) :=
  let s1 := min s a.length
  let e1 := max s1 (min e a.length)
  if rhs.length = e1 - s1 then some (a.take s1 ++ rhs ++ a.drop e1) else none

/-- numpy in-place slice addition a[s:e] += rhs (same length discipline as
sliceAssign). -/
def sliceAddAssign (a : List ℚ) (s e : ℕ) (rhs : List ℚ) :
    Option (List ℚ) :=
  let s1 := min s a.length
  let e1 := max s1 (min e a.length)
  if rhs.length = e1 - s1 then
    some (a.take s1 ++ List.zipWith (· + ·) ((a.drop s1).take rhs.length) rhs
          ++ a.drop e1)
  else none

/-- numpy in-place slice multiplication a[s:e] *= rhs. -/
def sliceMulAssign (a : List ℚ) (s e : ℕ) (rhs : List ℚ) :
    Option (List ℚ) :=
  let s1 := min s a.length
  let e1 := max s1 (min e a.length)
  if rhs.length = e1 - s1 then
    some (a.take s1 ++ List.zipWith (· * ·) ((a.drop s1).take rhs.length) rhs
          ++ a.drop e1)
  else none

/-- last_end_time + tick_scale * np.arange(n). -/
def ramp (base scale : ℚ) (n : ℕ) : List ℚ :=
  (List.range n).map fun k : ℕ => base + scale * (k : ℚ)

/-- The loop over consecutive tempo intervals in
PrettyMIDI._update_tick_to_time (lines 92-96): each pair of breakpoints
writes a linear ramp into the array and updates last_end_time from the
written end index. -/
def updateSegs : List ((ℕ × ℚ) × (ℕ × ℚ)) → List ℚ → ℚ →
    Option (List ℚ × ℚ)
  | [], a, lastEnd => some (a, lastEnd)
  | ((s, sc), (e, _)) :: rest, a, lastEnd => do
      let n := ((e : ℤ) - s + 1).toNat
      let a1 ← sliceAssign a s (e + 1) (ramp lastEnd sc n)
      let le1 ← a1[e]?
      updateSegs rest a1 le1

/-- PrettyMIDI._update_tick_to_time: allocate np.zeros(max_tick), fill the
interior tempo intervals, then extend the final tempo from its tick to the
end of the array. -/
def updateTickToTime (ts : List (ℕ × ℚ)) (maxTick : ℕ) : Option (List ℚ) :=
  match ts.getLast? with
  | none => none   -- ts[-1] on an empty list would raise; never happens
  | some (s, sc) => do
      let a := List.replicate maxTick (0 : ℚ)
      let (a1, lastEnd) ← updateSegs (ts.zip ts.tail) a 0
      sliceAssign a1 s maxTick (ramp lastEnd sc (maxTick - s))

/-- max_tick computation of PrettyMIDI.__init__ line 40:
max over all tracks of the per-track max event tick, plus one.  Python max of
an empty sequence raises, modelled by none (an empty track or no tracks at
all).  Since ticks are naturals, the nested max over a nonempty track equals
a fold of max from 0. -/
def maxTickOf (tracks : List Track) : Option ℕ :=
  if tracks.isEmpty ∨ tracks.any (fun tr => tr.isEmpty) then none
  else
    some (((tracks.map fun tr =>
      (tr.map MidiEvent.tick).foldl max 0).foldl max 0) + 1)

/-- Dictionary lookup in the pending note-on table (Python dict indexing with
the key tuple (program, is_drum, pitch)). -/
def dictGet (k : ℕ × Bool × ℕ) (d : List ((ℕ × Bool × ℕ) × (ℚ × ℕ))) :
    Option (ℚ × ℕ) :=
  (d.find? fun p => p.1 = k).map (·.2)

/-- Python dict assignment d[k] = v: overwrite any previous binding. -/
def dictSet (k : ℕ × Bool × ℕ) (v : ℚ × ℕ)
    (d : List ((ℕ × Bool × ℕ) × (ℚ × ℕ))) :
    List ((ℕ × Bool × ℕ) × (ℚ × ℕ)) :=
  (k, v) :: d.filter fun p => p.1 ≠ k

/-- Python del d[k]. -/
def dictDel (k : ℕ × Bool × ℕ) (d : List ((ℕ × Bool × ℕ) × (ℚ × ℕ))) :
    List ((ℕ × Bool × ℕ) × (ℚ × ℕ)) :=
  d.filter fun p => p.1 ≠ k

/-- The mutable state threaded through PrettyMIDI._get_instruments:
the growing container-level instrument list, plus the per-track pending
note-on table and the 16-entry channel-to-program table. -/
structure ReconState where
  instruments : List Instrument
  last_note_on : List ((ℕ × Bool × ℕ) × (ℚ × ℕ))
  current_instrument : List ℕ
deriving DecidableEq

/-- The note-off body of PrettyMIDI._get_instruments (lines 129-153), shared
between Note Off events and Note On events with velocity 0.  evVelocity is
the velocity carried by the terminating event itself (event.velocity), which
line 151 of the source uses when it creates a new instrument. -/
def handleNoteOff (tickToTime : List ℚ) (st : ReconState)
    (channel pitch evVelocity tk : ℕ) : ReconState :=
  let program := st.current_instrument.getD channel 0
  let is_drum := decide (channel = 9)
  let key := (program, is_drum, pitch)
  match dictGet key st.last_note_on with
  | none => st   -- spurious note-off: ignored
  | some (start, velocity) =>
      let end_ := tickToTime.getD tk 0
      let instrument_exists :=
        st.instruments.any fun i => i.program = program ∧ i.is_drum = is_drum
      let instruments1 :=
        if instrument_exists then
          -- append the note to every matching instrument (the source loop
          -- has no break statement)
          st.instruments.map fun i =>
            if i.program = program ∧ i.is_drum = is_drum then
              { i with events := i.events ++ [⟨velocity, pitch, start, end_⟩] }
            else i
        else
          -- create the instrument; the note is built from event.velocity
          st.instruments ++
            [⟨program, is_drum, [⟨evVelocity, pitch, start, end_⟩], []⟩]
      { st with instruments := instruments1,
                last_note_on := dictDel key st.last_note_on }

/-- One iteration of the event loop of PrettyMIDI._get_instruments
(lines 117-164). -/
def processEvent (tickToTime : List ℚ) (st : ReconState) (e : MidiEvent) :
    ReconState :=
  match e with
  | .programChange channel program _ =>
      { st with current_instrument := st.current_instrument.set channel program }
  | .noteOn channel pitch velocity tk =>
      if 0 < velocity then
        let program := st.current_instrument.getD channel 0
        let is_drum := decide (channel = 9)
        let lno := dictSet (program, is_drum, pitch)
          (tickToTime.getD tk 0, velocity) st.last_note_on
        { st with last_note_on := lno }
      else
        -- Note On with velocity 0 is treated as a note-off; its
        -- event.velocity is 0
        handleNoteOff tickToTime st channel pitch 0 tk
  | .noteOff channel pitch velocity tk =>
      handleNoteOff tickToTime st channel pitch velocity tk
  | .pitchWheel channel raw tk =>
      let program := st.current_instrument.getD channel 0
      let is_drum := decide (channel = 9)
      let pitch_bend : ℚ := 2 * raw / 8192
      { st with instruments :=
          st.instruments.map fun i =>
            if i.program = program ∧ i.is_drum = is_drum then
              { i with pitch_changes :=
                  i.pitch_changes ++ [(tickToTime.getD tk 0, pitch_bend)] }
            else i }
  | .setTempo _ _ => st
  | .other _ => st

/-- PrettyMIDI._get_instruments: per track, reset the pending table and the
channel program table (16 channels, all initialized to program 0), then fold
the events; the instrument list itself persists across tracks. -/
def getInstruments (tickToTime : List ℚ) (tracks : List Track) :
    List Instrument :=
  (tracks.foldl
    (fun insts track =>
      (track.foldl (processEvent tickToTime)
        ⟨insts, [], List.replicate 16 0⟩).instruments)
    [])

/-- The PrettyMIDI container after __init__. -/
structure PrettyMIDI where
  resolution : ℕ
  tick_scales : List (ℕ × ℚ)
  tick_to_time : List ℚ
  instruments : List Instrument
deriving DecidableEq

/-- PrettyMIDI.__init__: tempo changes from track 0, tick-to-time lookup up
to the overall maximum tick plus one, then event reconstruction.  An empty
track list or an empty track makes the Python max() calls raise, hence none.
The warning print for tempo events on nonzero tracks (line 43-44) has no
effect on the data and is not modelled. -/
def PrettyMIDI.mk? (resolution : ℕ) (tracks : List Track) :
    Option PrettyMIDI :=
  match tracks with
  | [] => none    -- midi_data[0] inside _get_tempo_changes would raise
  | track0 :: _ => do
      let ts := tickScalesOf resolution track0
      let maxTick ← maxTickOf tracks
      let ttt ← updateTickToTime ts maxTick
      some ⟨resolution, ts, ttt, getInstruments ttt tracks⟩

/-- PrettyMIDI.get_tempii: parallel arrays of tempo change times and BPM
values recomputed from the breakpoints. -/
def PrettyMIDI.get_tempii (pm : PrettyMIDI) : List ℚ × List ℚ :=
  (pm.tick_scales.map fun p => pm.tick_to_time.getD p.1 0,
   pm.tick_scales.map fun p => 60 / (p.2 * pm.resolution))

/-- Insertion step for the model of np.sort on rationals. -/
def insortQ (x : ℚ) : List ℚ → List ℚ
  | [] => [x]
  | y :: ys => if x ≤ y then x :: y :: ys else y :: insortQ x ys

/-- Ascending sort, modelling np.sort. -/
def sortQ (l : List ℚ) : List ℚ := l.foldr insortQ []

/-- Instrument.get_onsets: the sorted note-on times of one instrument. -/
def Instrument.get_onsets (inst : Instrument) : List ℚ :=
  sortQ (inst.events.map Note.start)

/-- PrettyMIDI.get_onsets: onsets concatenated over instruments, sorted. -/
def PrettyMIDI.get_onsets (pm : PrettyMIDI) : List ℚ :=
  sortQ (pm.instruments.foldl (fun acc i => acc ++ i.events.map Note.start) [])

/-!
Piano roll rendering (Instrument.get_piano_roll, lines 301-367).

A piano roll np.ndarray of shape (128, W) is modelled column-wise as a
`List (List ℤ)` of W columns, each of length 128 (row r of column c is the
matrix entry [r, c]).  Entries live in int16: every store wraps through
`toInt16`, and stores of float values truncate toward zero first
(`ratTrunc`), as the numpy casts do.
-/

/-- A 128 x w zero matrix (np.zeros), column-wise. -/
def zeroRoll (w : ℕ) : List (List ℤ) :=
  List.replicate w (List.replicate 128 (0 : ℤ))

/-- Largest note end time of a nonempty note list
(np.max([note.end for note in self.events])). -/
def maxEndOf (events : List Note) : ℚ :=
  (events.map Note.end_).foldl max 0   -- note ends are nonnegative in use

/-- piano_roll[note.pitch, int(note.start*fs):int(note.end*fs)] += velocity
(line 328).  Negative times would become negative Python indices; all uses
have nonnegative times, and truncation toward zero then equals floor. -/
def addNoteBlock (m : List (List ℤ)) (note : Note) : List (List ℤ) :=
  let a := (ratTrunc (note.start * 100)).toNat
  let b := (ratTrunc (note.end_ * 100)).toNat
  m.mapIdx fun c col =>
    if a ≤ c ∧ c < b then
      col.set note.pitch (toInt16 (col.getD note.pitch 0 + (note.velocity : ℤ)))
    else col

/-- One column of the bent block of lines 339-355: shift all 128 rows by the
integer part of the bend (rows shifted out of range become 0; bi = 0 leaves
the column as the original, matching the in-place view branch), then blend
each row with its pitch neighbor by the decimal part; direction depends on
the sign of the bend.  The result is stored back into the int16 matrix. -/
def bentColumn (bi : ℤ) (d : ℚ) (bendNonneg : Bool) (col : List ℤ) :
    List ℤ :=
  let colQ : ℕ → ℚ := fun r => ((col.getD r 0 : ℤ) : ℚ)
  let shifted : ℕ → ℚ := fun r =>
    if bi = 0 then colQ r
    else if 0 ≤ (r : ℤ) - bi ∧ (r : ℤ) - bi < 128 then colQ ((r : ℤ) - bi).toNat
    else 0
  let blended : ℕ → ℚ := fun r =>
    if bendNonneg then
      if 1 ≤ r then (1 - d) * shifted r + d * shifted (r - 1) else shifted r
    else
      if r ≤ 126 then (1 - d) * shifted r + d * shifted (r + 1) else shifted r
  (List.range 128).map fun r => toInt16 (ratTrunc (blended r))

/-- One iteration of the pitch-bend loop (lines 331-357) on a consecutive
pair of bend segments ((start, bend), (end, _)).  Failure cases mirror
numpy: np.zeros with a negative width raises, and the row-block assignment
into the freshly allocated bent_roll raises when the clipped column slice of
piano_roll does not match its width.

In the bend_int = 0 branch the source takes a view of piano_roll and blends
in place, which never fails and clips at the matrix width; the blended
values are identical to `bentColumn 0`.  Negative start or end times would
index from the end of the array in Python; they do not occur (bend times
come from tick_to_time) and are mapped to none. -/
def bendStep (m : List (List ℤ)) (seg : (ℚ × ℚ) × (ℚ × ℚ)) :
    Option (List (List ℤ)) :=
  let start := seg.1.1
  let bend := seg.1.2
  let stop := seg.2.1
  if |bend| < 1 / 8192 then some m
  else
    let bi : ℤ := if 0 ≤ bend then ⌊bend⌋ else -⌊-bend⌋
    let d : ℚ := |bend - bi|
    let a : ℤ := ratTrunc (start * 100)
    let b : ℤ := ratTrunc (stop * 100)
    if a < 0 ∨ b < 0 then none
    else
      let aN := a.toNat
      let bN := b.toNat
      if bi = 0 then
        some (m.mapIdx fun c col =>
          if aN ≤ c ∧ c < min bN m.length then
            bentColumn 0 d (decide (0 ≤ bend)) col
          else col)
      else if b < a then none   -- np.zeros((128, negative)) raises
      else if min bN m.length - min aN m.length ≠ bN - aN then none
      else
        some (m.mapIdx fun c col =>
          if aN ≤ c ∧ c < bN then bentColumn bi d (decide (0 ≤ bend)) col
          else col)

/-- Per-row mean over the native columns [a, b) (clipped to the matrix), as
np.mean(piano_roll[:, start:end], axis=1) stored into an int16 column
(line 366).  An empty column range makes np.mean return NaN (with a runtime
warning, not an exception); the rational model yields 0 there, and the
theorems below only speak about nonempty ranges. -/
def meanCol (m : List (List ℤ)) (a b : ℕ) : List ℤ :=
  let block := (m.drop a).take (b - a)
  (List.range 128).map fun r =>
    toInt16 (ratTrunc ((block.map fun col => ((col.getD r 0 : ℤ) : ℚ)).sum
      / (block.length : ℚ)))

/-- The resampling loop of lines 361-367: allocate 128 x len(times) zeros,
then set column n (for n up to len(times) - 2) to the mean of the native
columns between the truncated sample indices of times[n] and times[n+1].
The final allocated column is never written. -/
def resampleRoll (times : List ℚ) (m : List (List ℤ)) : List (List ℤ) :=
  (List.range times.length).map fun n =>
    if n + 1 < times.length then
      meanCol m ((ratTrunc (times.getD n 0 * 100)).toNat)
        ((ratTrunc (times.getD (n + 1) 0 * 100)).toNat)
    else List.replicate 128 0

/-- Instrument.get_piano_roll.  With no events the source returns
np.array([[]]*128), a 128 x 0 matrix: zero columns.  Drum instruments skip
note and bend processing and return zeros sized to the native width or to
the supplied times grid.  Otherwise notes are added, the pitch-bend segments
are processed (each may raise, see bendStep), and an optional times grid
triggers resampling. -/
def Instrument.get_piano_roll (inst : Instrument) (times : Option (List ℚ)) :
    Option (List (List ℤ)) :=
  if inst.events = [] then some []
  else
    let end_time := maxEndOf inst.events
    if ratTrunc (100 * end_time) < 0 then none   -- np.zeros negative width
    else
      let base := zeroRoll (ratTrunc (100 * end_time)).toNat
      if inst.is_drum then
        match times with
        | none => some base
        | some ts => some (zeroRoll ts.length)
      else do
        let rolled := inst.events.foldl addNoteBlock base
        let segs := inst.pitch_changes.zip
          (inst.pitch_changes.tail ++ [(end_time, 0)])
        let bent ← segs.foldlM bendStep rolled
        match times with
        | none => some bent
        | some ts => some (resampleRoll ts bent)

/-- PrettyMIDI.get_piano_roll (lines 206-222): per-instrument rolls, then an
aggregate sized to the maximum column count, each roll added into its own
column range.  np.max over an empty list of instruments raises. -/
def PrettyMIDI.get_piano_roll (pm : PrettyMIDI) (times : Option (List ℚ)) :
    Option (List (List ℤ)) := do
  let rolls ← pm.instruments.mapM fun i => i.get_piano_roll times
  if rolls = [] then none
  else
    let n := (rolls.map List.length).foldl max 0
    some (rolls.foldl
      (fun acc r => acc.mapIdx fun c col =>
        if c < r.length then
          List.zipWith (fun x y => toInt16 (x + y)) col (r.getD c [])
        else col)
      (zeroRoll n))

/-- PrettyMIDI.get_chroma (lines 224-239): fold the 128 rows of the
aggregate piano roll into 12 pitch classes.  The chroma matrix is a float
array in the source, so the row sums do not wrap. -/
def PrettyMIDI.get_chroma (pm : PrettyMIDI) (times : Option (List ℚ)) :
    Option (List (List ℤ)) := do
  let roll ← pm.get_piano_roll times
  some (roll.map fun col =>
    (List.range 12).map fun note =>
      ((List.range 128).filter (fun r => r % 12 = note)
        |>.map fun r => col.getD r 0).sum)

/-!
Synthesis (Instrument.synthesize lines 386-423, PrettyMIDI.synthesize lines
241-260).  The waveform generator np.sin (applied at 2*pi*frequency*k/fs
with the irrational frequency 440 * 2 ^ ((pitch - 69) / 12)) and the
envelope np.exp(-k/fs) are not rational-valued; they enter the model as the
function parameters noteWave (pitch and sample index to sample value) and
envExp (sample index to envelope value).  Every claim proved about
synthesis holds for all values of these parameters.
-/

/-- np.linspace over rationals.  A float sample count is truncated by numpy
before this is reached, so the count is a natural number here. -/
def linspaceQ (a b : ℚ) (n : ℕ) : List ℚ :=
  if n = 1 then [a]
  else (List.range n).map fun k : ℕ => a + (b - a) * (k : ℚ) / ((n : ℚ) - 1)

/-- Instrument.synthesize.  max([]) on an instrument without notes raises
(such instruments are never produced by reconstruction).  Drums return the
zero buffer.  For each note an enveloped waveform is added over the sample
range of the note; the trailing fade_out multiplication uses the Python
slice envelope[-len(fade_out):], which for an empty fade_out (fs < 10)
denotes the whole envelope and raises on any positive-length note. -/
def Instrument.synthesize (envExp : ℕ → ℚ) (noteWave : ℕ → ℕ → ℚ)
    (fs : ℕ) (inst : Instrument) : Option (List ℚ) :=
  if inst.events = [] then none
  else
    let maxEnd := maxEndOf inst.events
    if ratTrunc ((fs : ℚ) * (maxEnd + 1)) < 0 then none
    else
      let base := List.replicate (ratTrunc ((fs : ℚ) * (maxEnd + 1))).toNat
        (0 : ℚ)
      if inst.is_drum then some base
      else
        let fadeLen := (ratTrunc ((fs : ℚ) / 10)).toNat
        let fade := linspaceQ 1 0 fadeLen
        inst.events.foldlM
          (fun buf note =>
            if ratTrunc ((fs : ℚ) * note.start) < 0 ∨
               ratTrunc ((fs : ℚ) * note.end_) < 0 then none
            else
              let s := (ratTrunc ((fs : ℚ) * note.start)).toNat
              let e := (ratTrunc ((fs : ℚ) * note.end_)).toNat
              let n := e - s
              let wv := (List.range n).map (noteWave note.pitch)
              let env0 := (List.range n).map envExp
              let lo := if fadeLen = 0 then 0 else n - fadeLen
              (if fadeLen < n then sliceMulAssign env0 lo n fade
               else some (List.zipWith (· * ·) env0 (linspaceQ 1 0 n))).bind
                fun env1 =>
                  let env2 := env1.map (· * (note.velocity : ℚ))
                  sliceAddAssign buf s e (List.zipWith (· * ·) env2 wv))
          base

/-- The maximum absolute value of a nonempty buffer, np.abs(x).max().  On
an empty buffer numpy raises ValueError; PrettyMIDI.synthesize guards that
case explicitly with none, so this total function is only ever applied to
nonempty buffers (where the 0 seed is absorbed by the nonnegative absolute
values and the result equals the numpy maximum). -/
def maxAbs (l : List ℚ) : ℚ := l.foldl (fun acc x => max acc |x|) 0

/-- Lines 252-257 of PrettyMIDI.synthesize: the per-instrument waveforms
summed into a buffer sized to the longest, before normalization.  np.max
over an empty waveform list raises. -/
def PrettyMIDI.premix (envExp : ℕ → ℚ) (noteWave : ℕ → ℕ → ℚ) (fs : ℕ)
    (pm : PrettyMIDI) : Option (List ℚ) := do
  let ws ← pm.instruments.mapM (Instrument.synthesize envExp noteWave fs)
  if ws = [] then none
  else
    let n := (ws.map List.length).foldl max 0
    some (ws.foldl
      (fun acc w =>
        List.zipWith (· + ·) (acc.take w.length) w ++ acc.drop w.length)
      (List.replicate n (0 : ℚ)))

/-- PrettyMIDI.synthesize: the premix divided by its peak absolute value
(line 259).  np.abs(synthesized).max() raises ValueError on an empty
premix buffer (every per-instrument waveform empty, e.g. at fs = 0),
modelled by none.  When the buffer is nonempty but the peak is 0 the numpy
division produces NaNs with a runtime warning, not an exception; the
rational model yields a zero buffer in that case.  Either way the result
is not peak-normalized to 1. -/
def PrettyMIDI.synthesize (envExp : ℕ → ℚ) (noteWave : ℕ → ℕ → ℚ) (fs : ℕ)
    (pm : PrettyMIDI) : Option (List ℚ) :=
  (pm.premix envExp noteWave fs).bind fun mix =>
    if mix = [] then none else some (mix.map (· / maxAbs mix))

/-- The (program, is_drum) identity keys of an instrument list, in order. -/
def instKeys (l : List Instrument) : List (ℕ × Bool) :=
  l.map fun i => (i.program, i.is_drum)

/-- Total number of reconstructed notes over an instrument list. -/
def totalNotes (l : List Instrument) : ℕ :=
  (l.map fun i => i.events.length).sum

/-- A matched note-off for the current reconstruction state: a Note Off
event, or a Note On with velocity 0, whose (program, is_drum, pitch) key is
present in the pending table. -/
def isMatchedOff (st : ReconState) (e : MidiEvent) : Prop :=
  match e with
  | .noteOn ch pitch v _ =>
      v = 0 ∧ (dictGet (st.current_instrument.getD ch 0, decide (ch = 9),
        pitch) st.last_note_on).isSome = true
  | .noteOff ch pitch _ _ =>
      (dictGet (st.current_instrument.getD ch 0, decide (ch = 9), pitch)
        st.last_note_on).isSome = true
  | _ => False

instance (st : ReconState) (e : MidiEvent) : Decidable (isMatchedOff st e) := by
  unfold isMatchedOff
  cases e <;> exact inferInstance

/-- The event ranges the parser collaborator guarantees: channels 0-15 and
pitches 0-127, as carried by any parsed MIDI stream.  Outside this range
the source raises: current_instrument is a 16-entry array indexed by
event.channel (lines 116, 121, 127, 133-153, 162), and the piano roll has
128 rows indexed by note.pitch (line 328); the total Lean embedding is
faithful to the source only inside these ranges, so the totality theorems
assume them. -/
def MidiEvent.inRange : MidiEvent → Prop
  | .programChange ch _ _ => ch < 16
  | .noteOn ch pitch _ _ => ch < 16 ∧ pitch < 128
  | .noteOff ch pitch _ _ => ch < 16 ∧ pitch < 128
  | .pitchWheel ch _ _ => ch < 16
  | .setTempo _ _ => True
  | .other _ => True

instance (e : MidiEvent) : Decidable e.inRange := by
  unfold MidiEvent.inRange
  cases e <;> exact inferInstance

/-- Wellformedness of an instrument as produced by reconstruction from an
in-range event stream: at least one note, nonnegative note times, pitches
within the 128 piano-roll rows, and a pitch-bend timeline that is sorted in
time, nonnegative, and does not extend past the last note end.  These are
the conditions under which the analysis surface cannot raise. -/
def Instrument.wf (i : Instrument) : Prop :=
  i.events ≠ [] ∧
  (∀ n ∈ i.events, 0 ≤ n.start ∧ 0 ≤ n.end_ ∧ n.pitch < 128) ∧
  List.Chain' (fun p q : ℚ × ℚ => p.1 ≤ q.1) i.pitch_changes ∧
  (∀ p ∈ i.pitch_changes, 0 ≤ p.1 ∧ p.1 ≤ maxEndOf i.events)

/-- The tick order the input contract guarantees for tempo events: within a
track, ticks are nondecreasing; two tempo events may share a tick only at
tick 0 (where the source replaces rather than appends). -/
def tickOrd (a b : ℕ) : Prop := a < b ∨ (a = 0 ∧ b = 0)

instance : DecidableRel tickOrd := fun a b =>
  (inferInstance : Decidable (a < b ∨ (a = 0 ∧ b = 0)))

/-- Strict tick order on tempo breakpoints. -/
def tickLt (p q : ℕ × ℚ) : Prop := p.1 < q.1

/-- Distinctness of adjacent tick scales. -/
def scaleNe (p q : ℕ × ℚ) : Prop := p.2 ≠ q.2

instance : DecidableRel tickLt := fun p q =>
  (inferInstance : Decidable (p.1 < q.1))

instance : DecidableRel scaleNe := fun p q =>
  (inferInstance : Decidable (p.2 ≠ q.2))

/-- The reference piecewise-linear time map determined by a breakpoint list:
within a segment the time grows linearly at the segment rate from the
accumulated base; past the last breakpoint the last rate extends forever. -/
def segTime : List (ℕ × ℚ) → ℚ → ℕ → ℚ
  | [], _, _ => 0
  | [(t, s)], base, i => base + s * ((i : ℚ) - t)
  | (t, s) :: (t1, s1) :: rest, base, i =>
      if i < t1 then base + s * ((i : ℚ) - t)
      else segTime ((t1, s1) :: rest) (base + s * ((t1 : ℚ) - t)) i

lemma chainTicks_le (x : ℕ × ℚ) (l : List (ℕ × ℚ))
    (h : List.Chain' tickLt (x :: l)) : ∀ p ∈ x :: l, x.1 ≤ p.1 := by
  induction l generalizing x with
  | nil => intro p hp; simp at hp; subst hp; exact le_refl _
  | cons y l ih =>
      intro p hp
      have h1 : tickLt x y ∧ List.Chain' tickLt (y :: l) := by
        rw [List.chain'_cons] at h; exact h
      rcases List.mem_cons.mp hp with h2 | h2
      · subst h2; exact le_refl _
      · exact le_trans (le_of_lt h1.1) (ih y h1.2 p h2)

lemma getD_take_of_lt (l : List ℚ) (n i : ℕ) (h : i < n) :
    (l.take n).getD i 0 = l.getD i 0 := by
  simp [List.getD, List.getElem?_take, h]

lemma getD_drop (l : List ℚ) (n i : ℕ) :
    (l.drop n).getD i 0 = l.getD (n + i) 0 := by
  simp [List.getD, List.getElem?_drop]

lemma getD_replicate (q : ℚ) (n i : ℕ) :
    (List.replicate n q).getD i 0 = if i < n then q else 0 := by
  rw [List.getD, List.get?_eq_getElem?, List.getElem?_replicate]
  rcases lt_or_ge i n with h | h
  · rw [if_pos h, if_pos h]; rfl
  · rw [if_neg (by omega), if_neg (by omega)]; rfl

lemma ramp_length (b sc : ℚ) (n : ℕ) : (ramp b sc n).length = n := by
  unfold ramp
  rw [List.length_map, List.length_range]

lemma ramp_getD (b sc : ℚ) (n k : ℕ) (h : k < n) :
    (ramp b sc n).getD k 0 = b + sc * k := by
  unfold ramp
  rw [List.getD, List.get?_eq_getElem?, List.getElem?_map,
    List.getElem?_range h]
  rfl

lemma spliceLen (a rhs : List ℚ) (s e : ℕ) (hs : s ≤ a.length)
    (_he : e ≤ a.length) (hse : s ≤ e) (hlen : rhs.length = e - s) :
    (a.take s ++ rhs ++ a.drop e).length = a.length := by
  simp [List.length_take, List.length_drop]
  omega

lemma spliceGetD (a rhs : List ℚ) (s e i : ℕ) (hs : s ≤ a.length)
    (_he : e ≤ a.length) (hse : s ≤ e) (hlen : rhs.length = e - s) :
    (a.take s ++ rhs ++ a.drop e).getD i 0 =
      if s ≤ i ∧ i < e then rhs.getD (i - s) 0 else a.getD i 0 := by
  have hts : (a.take s).length = s := by simp [List.length_take]; omega
  rw [List.append_assoc]
  rcases lt_or_ge i s with h1 | h1
  · rw [List.getD_append _ _ _ _ (by omega), getD_take_of_lt _ _ _ h1,
      if_neg (by omega)]
  · rw [List.getD_append_right _ _ _ _ (by omega), hts]
    rcases lt_or_ge i e with h2 | h2
    · rw [List.getD_append _ _ _ _ (by omega), if_pos ⟨h1, h2⟩]
    · rw [List.getD_append_right _ _ _ _ (by omega), hlen, getD_drop,
        if_neg (by omega)]
      congr 1
      omega

lemma sliceAssign_of_le (a rhs : List ℚ) (s e : ℕ) (hs : s ≤ a.length)
    (he : e ≤ a.length) (hse : s ≤ e) (hlen : rhs.length = e - s) :
    sliceAssign a s e rhs = some (a.take s ++ rhs ++ a.drop e) := by
  unfold sliceAssign
  simp only [min_eq_left hs, min_eq_left he, max_eq_right hse]
  rw [if_pos hlen]

lemma getD_of_getElem? (l : List ℚ) (i : ℕ) (h : i < l.length) :
    l[i]? = some (l.getD i 0) := by
  rw [List.getElem?_eq_getElem h]
  simp [List.getD, List.getElem?_eq_getElem h]

/-- Value of segTime at the head tick: the accumulated base. -/
lemma segTime_at_head (x : ℕ × ℚ) (l : List (ℕ × ℚ)) (base : ℚ)
    (h : List.Chain' tickLt (x :: l)) : segTime (x :: l) base x.1 = base := by
  obtain ⟨t, s⟩ := x
  cases l with
  | nil => simp [segTime]
  | cons y l =>
      obtain ⟨t1, s1⟩ := y
      have h1 : t < t1 := by
        rw [List.chain'_cons] at h; exact h.1
      simp [segTime, h1]

/-- The interval loop of _update_tick_to_time writes exactly the piecewise
ramps of segTime over [head tick, last tick] and returns the segTime value at
the last breakpoint tick as last_end_time; entries outside that range are
untouched (nothing at all is written when there is a single breakpoint). -/
lemma updateSegs_spec (ts : List (ℕ × ℚ)) :
    ∀ (x : ℕ × ℚ) (a : List ℚ) (lastEnd : ℚ),
    List.Chain' tickLt (x :: ts) →
    (∀ p ∈ x :: ts, p.1 < a.length) →
    ∃ a1,
      updateSegs ((x :: ts).zip ts) a lastEnd =
        some (a1,
          segTime (x :: ts) lastEnd
            ((x :: ts).getLast (List.cons_ne_nil x ts)).1) ∧
      a1.length = a.length ∧
      ∀ i, i < a.length →
        a1.getD i 0 =
          if x.1 ≤ i ∧ i ≤ ((x :: ts).getLast (List.cons_ne_nil x ts)).1 ∧
              ts ≠ [] then
            segTime (x :: ts) lastEnd i
          else a.getD i 0 := by
  induction ts with
  | nil =>
      intro x a lastEnd _ _
      obtain ⟨t, s⟩ := x
      refine ⟨a, ?_, rfl, ?_⟩
      · simp [updateSegs, segTime]
      · intro i _
        simp
  | cons y ts1 ih =>
      intro x a lastEnd hchain hbound
      obtain ⟨t0, s0⟩ := x
      obtain ⟨t1, s1⟩ := y
      have hchain1 : List.Chain' tickLt ((t1, s1) :: ts1) :=
        (List.chain'_cons.mp hchain).2
      have ht01 : t0 < t1 := (List.chain'_cons.mp hchain).1
      have hb0 : t0 < a.length := hbound (t0, s0) (by simp)
      have hb1 : t1 < a.length := hbound (t1, s1) (by simp)
      -- the head segment write
      have hn : (((t1 : ℤ) - t0 + 1)).toNat = t1 + 1 - t0 := by omega
      have hslice :
          sliceAssign a t0 (t1 + 1) (ramp lastEnd s0 (t1 + 1 - t0)) =
            some (a.take t0 ++ ramp lastEnd s0 (t1 + 1 - t0) ++
              a.drop (t1 + 1)) := by
        refine sliceAssign_of_le _ _ _ _ (by omega) (by omega) (by omega) ?_
        rw [ramp_length]
      set a1 : List ℚ :=
        a.take t0 ++ ramp lastEnd s0 (t1 + 1 - t0) ++ a.drop (t1 + 1) with ha1
      have ha1len : a1.length = a.length := by
        rw [ha1]
        exact spliceLen _ _ _ _ (by omega) (by omega) (by omega)
          (by rw [ramp_length])
      have ha1get : ∀ i, i < a.length →
          a1.getD i 0 =
            if t0 ≤ i ∧ i < t1 + 1 then lastEnd + s0 * ((i - t0 : ℕ) : ℚ)
            else a.getD i 0 := by
        intro i _
        rw [ha1, spliceGetD _ _ _ _ _ (by omega) (by omega) (by omega)
          (by rw [ramp_length])]
        rcases Classical.em (t0 ≤ i ∧ i < t1 + 1) with h | h
        · rw [if_pos h, if_pos h, ramp_getD _ _ _ _ (by omega)]
        · rw [if_neg h, if_neg h]
      have hread : a1[t1]? = some (lastEnd + s0 * ((t1 - t0 : ℕ) : ℚ)) := by
        rw [getD_of_getElem? _ _ (by omega), ha1get t1 hb1,
          if_pos ⟨by omega, by omega⟩]
      set base1 : ℚ := lastEnd + s0 * ((t1 - t0 : ℕ) : ℚ) with hbase1
      obtain ⟨a2, hrun, ha2len, ha2get⟩ :=
        ih (t1, s1) a1 base1 hchain1
          (fun p hp => by rw [ha1len]; exact hbound p (List.mem_cons_of_mem _ hp))
      -- the last breakpoint of the whole list is that of the tail
      have hlast : ((t0, s0) :: (t1, s1) :: ts1).getLast
            (List.cons_ne_nil _ _) =
          ((t1, s1) :: ts1).getLast (List.cons_ne_nil _ _) :=
        List.getLast_cons _
      have hLlast := chainTicks_le (t1, s1) ts1 hchain1 _
        (List.getLast_mem (List.cons_ne_nil (t1, s1) ts1))
      set L : ℕ := (((t1, s1) :: ts1).getLast (List.cons_ne_nil _ _)).1 with hL
      have hcast : ((t1 - t0 : ℕ) : ℚ) = (t1 : ℚ) - (t0 : ℚ) := by
        push_cast [Nat.cast_sub ht01.le]
        ring
      have hsegbig : ∀ j : ℕ, ¬ j < t1 →
          segTime ((t0, s0) :: (t1, s1) :: ts1) lastEnd j =
            segTime ((t1, s1) :: ts1) base1 j := by
        intro j hj
        simp only [segTime, if_neg hj]
        rw [hbase1, hcast]
      refine ⟨a2, ?_, by rw [ha2len, ha1len], ?_⟩
      · show updateSegs (((t0, s0) :: (t1, s1) :: ts1).zip ((t1, s1) :: ts1))
            a lastEnd = _
        rw [List.zip_cons_cons]
        simp only [updateSegs]
        rw [hn, hslice]
        show (a1[t1]? >>= fun le1 =>
            updateSegs (((t1, s1) :: ts1).zip ts1) a1 le1) = _
        rw [hread]
        show updateSegs (((t1, s1) :: ts1).zip ts1) a1 base1 = _
        rw [hrun]
        have hfold : (((t0, s0) :: (t1, s1) :: ts1).getLast
            (List.cons_ne_nil _ _)).1 = L := by
          rw [hlast]
        rw [hfold, ← hsegbig L (by omega)]
      · intro i hi
        have hval := ha2get i (by rw [ha1len]; exact hi)
        rw [hval]
        have hfold : (((t0, s0) :: (t1, s1) :: ts1).getLast
            (List.cons_ne_nil _ _)).1 = L := by
          rw [hlast]
        rw [hfold]
        have htriv : ((t1, s1) :: ts1) ≠ [] := List.cons_ne_nil _ _
        rcases lt_or_ge i t0 with hi0 | hi0
        · -- untouched prefix
          rw [if_neg (fun h => absurd h.1 (by omega)),
            if_neg (fun h => absurd h.1 (by omega)),
            ha1get i hi, if_neg (by omega)]
        rcases lt_or_ge i t1 with hi1 | hi1
        · -- inside the head segment, strictly before t1
          rw [if_neg (fun h => absurd h.1 (by omega)),
            if_pos ⟨hi0, by omega, htriv⟩]
          rw [ha1get i hi, if_pos ⟨hi0, by omega⟩]
          simp only [segTime, if_pos hi1]
          rw [Nat.cast_sub hi0]
        -- now t1 ≤ i
        rcases List.eq_nil_or_concat ts1 with hts1 | hts1ne
        · -- single tail breakpoint: nothing written beyond the head segment
          subst hts1
          have hLt1 : L = t1 := by rw [hL]; rfl
          rw [if_neg (fun h => absurd h.2.2 (by simp))]
          rcases Classical.em (i ≤ L) with hile | hile
          · have hieq : i = t1 := by omega
            rw [if_pos ⟨hi0, by omega, htriv⟩, ha1get i hi,
              if_pos ⟨hi0, by omega⟩, hsegbig i (by omega)]
            have hseg1 : segTime [(t1, s1)] base1 i =
                base1 + s1 * ((i : ℚ) - t1) := by
              simp [segTime]
            rw [hseg1, hbase1, hieq]
            simp
          · rw [if_neg (fun h => absurd h.2.1 (by omega)),
              ha1get i hi, if_neg (by omega)]
        · have htsne : ts1 ≠ [] := by
            rcases hts1ne with ⟨l, b, rfl⟩
            exact List.concat_ne_nil _ _
          rcases Classical.em (i ≤ L) with hile | hile
          · rw [if_pos ⟨hi1, hile, htsne⟩, if_pos ⟨hi0, hile, htriv⟩,
              hsegbig i (by omega)]
          · rw [if_neg (fun h => absurd h.2.1 (by omega)),
              if_neg (fun h => absurd h.2.1 (by omega)),
              ha1get i hi, if_neg (by omega)]

/-- Past the last breakpoint, segTime grows linearly at the last rate. -/
lemma segTime_ge_last (l : List (ℕ × ℚ)) :
    ∀ (x : ℕ × ℚ) (base : ℚ) (i : ℕ),
    List.Chain' tickLt (x :: l) →
    ((x :: l).getLast (List.cons_ne_nil x l)).1 ≤ i →
    segTime (x :: l) base i =
      segTime (x :: l) base ((x :: l).getLast (List.cons_ne_nil x l)).1 +
        ((x :: l).getLast (List.cons_ne_nil x l)).2 *
          ((i : ℚ) - ((x :: l).getLast (List.cons_ne_nil x l)).1) := by
  induction l with
  | nil =>
      intro x base i _ _
      obtain ⟨t, s⟩ := x
      simp [segTime]
  | cons y l ih =>
      intro x base i hchain hle
      obtain ⟨t0, s0⟩ := x
      obtain ⟨t1, s1⟩ := y
      have hchain1 : List.Chain' tickLt ((t1, s1) :: l) :=
        (List.chain'_cons.mp hchain).2
      have hlast : ((t0, s0) :: (t1, s1) :: l).getLast (List.cons_ne_nil _ _) =
          ((t1, s1) :: l).getLast (List.cons_ne_nil _ _) := List.getLast_cons _
      rw [hlast] at hle ⊢
      have ht1L : t1 ≤ (((t1, s1) :: l).getLast (List.cons_ne_nil _ _)).1 :=
        chainTicks_le (t1, s1) l hchain1 _
          (List.getLast_mem (List.cons_ne_nil _ _))
      have h1 : ¬ i < t1 := by omega
      have h2 : ¬ (((t1, s1) :: l).getLast (List.cons_ne_nil _ _)).1 < t1 := by
        omega
      simp only [segTime, if_neg h1, if_neg h2]
      exact ih (t1, s1) (base + s0 * ((t1 : ℚ) - t0)) i hchain1 hle

/-- segTime never drops below its accumulated base at or after the head
tick, when all rates are nonnegative. -/
lemma segTime_ge_base (l : List (ℕ × ℚ)) :
    ∀ (x : ℕ × ℚ) (base : ℚ) (j : ℕ),
    List.Chain' tickLt (x :: l) →
    (∀ p ∈ x :: l, 0 ≤ p.2) →
    x.1 ≤ j →
    base ≤ segTime (x :: l) base j := by
  induction l with
  | nil =>
      intro x base j _ hs hj
      obtain ⟨t, s⟩ := x
      simp only [segTime]
      have h1 : (0 : ℚ) ≤ (j : ℚ) - t := by
        have : (t : ℚ) ≤ (j : ℚ) := by exact_mod_cast hj
        linarith
      nlinarith [hs (t, s) (by simp)]
  | cons y l ih =>
      intro x base j hchain hs hj
      obtain ⟨t0, s0⟩ := x
      obtain ⟨t1, s1⟩ := y
      have hchain1 : List.Chain' tickLt ((t1, s1) :: l) :=
        (List.chain'_cons.mp hchain).2
      have ht01 : t0 < t1 := (List.chain'_cons.mp hchain).1
      have hs0 : (0 : ℚ) ≤ s0 := hs (t0, s0) (by simp)
      simp only [segTime]
      rcases lt_or_ge j t1 with hj1 | hj1
      · rw [if_pos hj1]
        have h1 : (0 : ℚ) ≤ (j : ℚ) - t0 := by
          have : (t0 : ℚ) ≤ (j : ℚ) := by exact_mod_cast hj
          linarith
        nlinarith
      · rw [if_neg (by omega)]
        have hbase1 : base ≤ base + s0 * ((t1 : ℚ) - t0) := by
          have h1 : (0 : ℚ) ≤ (t1 : ℚ) - t0 := by
            have : (t0 : ℚ) ≤ (t1 : ℚ) := by exact_mod_cast ht01.le
            linarith
          nlinarith
        exact le_trans hbase1
          (ih (t1, s1) _ j hchain1
            (fun p hp => hs p (List.mem_cons_of_mem _ hp)) hj1)

/-- segTime is monotone in the tick argument when all rates are
nonnegative. -/
lemma segTime_mono (l : List (ℕ × ℚ)) :
    ∀ (x : ℕ × ℚ) (base : ℚ) (i j : ℕ),
    List.Chain' tickLt (x :: l) →
    (∀ p ∈ x :: l, 0 ≤ p.2) →
    x.1 ≤ i → i ≤ j →
    segTime (x :: l) base i ≤ segTime (x :: l) base j := by
  induction l with
  | nil =>
      intro x base i j _ hs _ hij
      obtain ⟨t, s⟩ := x
      simp only [segTime]
      have hs0 : (0 : ℚ) ≤ s := hs (t, s) (by simp)
      have hij1 : (i : ℚ) ≤ (j : ℚ) := by exact_mod_cast hij
      nlinarith
  | cons y l ih =>
      intro x base i j hchain hs hxi hij
      obtain ⟨t0, s0⟩ := x
      obtain ⟨t1, s1⟩ := y
      have hchain1 : List.Chain' tickLt ((t1, s1) :: l) :=
        (List.chain'_cons.mp hchain).2
      have hs0 : (0 : ℚ) ≤ s0 := hs (t0, s0) (by simp)
      have hstail : ∀ p ∈ (t1, s1) :: l, 0 ≤ p.2 :=
        fun p hp => hs p (List.mem_cons_of_mem _ hp)
      simp only [segTime]
      rcases lt_or_ge j t1 with hj1 | hj1
      · rw [if_pos (by omega : i < t1), if_pos hj1]
        have hij1 : (i : ℚ) ≤ (j : ℚ) := by exact_mod_cast hij
        nlinarith
      · rw [if_neg (by omega : ¬ j < t1)]
        rcases lt_or_ge i t1 with hi1 | hi1
        · rw [if_pos hi1]
          have h1 : base + s0 * ((i : ℚ) - t0) ≤
              base + s0 * ((t1 : ℚ) - t0) := by
            have : (i : ℚ) ≤ (t1 : ℚ) := by exact_mod_cast hi1.le
            nlinarith
          exact le_trans h1
            (segTime_ge_base l (t1, s1) _ j hchain1 hstail hj1)
        · rw [if_neg (by omega)]
          exact ih (t1, s1) _ i j hchain1 hstail hi1 hij

/-- Within the segment of a consecutive breakpoint pair, segTime is the
linear ramp from its value at the left endpoint. -/
lemma segTime_pair (ts : List (ℕ × ℚ)) :
    ∀ (base : ℚ) (pq : (ℕ × ℚ) × (ℕ × ℚ)), pq ∈ ts.zip ts.tail →
    ∀ i : ℕ, List.Chain' tickLt ts →
    pq.1.1 ≤ i → i ≤ pq.2.1 →
    segTime ts base i =
      segTime ts base pq.1.1 + pq.1.2 * ((i : ℚ) - pq.1.1) := by
  induction ts with
  | nil => intro base pq hpq; simp at hpq
  | cons x ts ih =>
      intro base pq hpq i hchain hi1 hi2
      cases ts with
      | nil => simp at hpq
      | cons y l =>
          obtain ⟨t0, s0⟩ := x
          obtain ⟨t1, s1⟩ := y
          have hchain1 : List.Chain' tickLt ((t1, s1) :: l) :=
            (List.chain'_cons.mp hchain).2
          have ht01 : t0 < t1 := (List.chain'_cons.mp hchain).1
          rw [List.tail_cons, List.zip_cons_cons] at hpq
          rcases List.mem_cons.mp hpq with hpq1 | hpq1
          · subst hpq1
            simp only at hi1 hi2 ⊢
            have hhead : segTime ((t0, s0) :: (t1, s1) :: l) base t0 = base :=
              segTime_at_head (t0, s0) _ base hchain
            rw [hhead]
            rcases lt_or_ge i t1 with hit | hit
            · simp only [segTime, if_pos hit]
            · have hieq : i = t1 := by omega
              rw [hieq]
              simp only [segTime, if_neg (lt_irrefl t1)]
              rw [segTime_at_head (t1, s1) l _ hchain1]
          · have hy : t1 ≤ pq.1.1 :=
              chainTicks_le (t1, s1) l hchain1 pq.1
                (List.of_mem_zip hpq1).1
            have hni : ¬ i < t1 := by omega
            have hnp : ¬ pq.1.1 < t1 := by omega
            simp only [segTime, if_neg hni, if_neg hnp]
            exact ih _ pq hpq1 i hchain1 hi1 hi2

/-- Closed form of _update_tick_to_time: under the breakpoint invariants
(first tick 0, strictly increasing ticks, all ticks inside the array) the
lookup array exists, has length max_tick, and holds exactly the piecewise
ramps of segTime. -/
lemma updateTickToTime_spec (s0 : ℚ) (ts1 : List (ℕ × ℚ)) (maxTick : ℕ)
    (hchain : List.Chain' tickLt ((0, s0) :: ts1))
    (hbound : ∀ p ∈ (0, s0) :: ts1, p.1 < maxTick) :
    ∃ arr, updateTickToTime ((0, s0) :: ts1) maxTick = some arr ∧
      arr.length = maxTick ∧
      ∀ i, i < maxTick → arr.getD i 0 = segTime ((0, s0) :: ts1) 0 i := by
  obtain ⟨a1, hrun, ha1len, ha1get⟩ :=
    updateSegs_spec ts1 (0, s0) (List.replicate maxTick (0 : ℚ)) 0 hchain
      (by intro p hp; rw [List.length_replicate]; exact hbound p hp)
  rw [List.length_replicate] at ha1len
  simp only [List.length_replicate, getD_replicate, ite_self] at ha1get
  set gl := ((0, s0) :: ts1).getLast (List.cons_ne_nil (0, s0) ts1) with hgl
  have hglb : gl.1 < maxTick :=
    hbound gl (List.getLast_mem (List.cons_ne_nil _ _))
  have hslice :
      sliceAssign a1 gl.1 maxTick
          (ramp (segTime ((0, s0) :: ts1) 0 gl.1) gl.2 (maxTick - gl.1)) =
        some (a1.take gl.1 ++
          ramp (segTime ((0, s0) :: ts1) 0 gl.1) gl.2 (maxTick - gl.1)
          ++ a1.drop maxTick) := by
    refine sliceAssign_of_le _ _ _ _ (by omega) (by omega) (by omega) ?_
    rw [ramp_length]
  refine ⟨a1.take gl.1 ++
    ramp (segTime ((0, s0) :: ts1) 0 gl.1) gl.2 (maxTick - gl.1)
    ++ a1.drop maxTick, ?_, ?_, ?_⟩
  · unfold updateTickToTime
    rw [List.getLast?_eq_getLast _ (List.cons_ne_nil (0, s0) ts1), ← hgl]
    show (updateSegs (((0, s0) :: ts1).zip (((0, s0) :: ts1).tail))
        (List.replicate maxTick (0 : ℚ)) 0 >>=
      fun p => sliceAssign p.1 gl.1 maxTick (ramp p.2 gl.2 (maxTick - gl.1)))
        = _
    rw [List.tail_cons, hrun]
    show sliceAssign a1 gl.1 maxTick
        (ramp (segTime ((0, s0) :: ts1) 0 gl.1) gl.2 (maxTick - gl.1)) = _
    rw [hslice]
  · rw [spliceLen _ _ _ _ (by omega) (by omega) (by omega)
      (by rw [ramp_length]), ha1len]
  · intro i hi
    rw [spliceGetD _ _ _ _ _ (by omega) (by omega) (by omega)
      (by rw [ramp_length])]
    rcases lt_or_ge i gl.1 with higl | higl
    · rw [if_neg (by omega), ha1get i (by omega)]
      have hts1ne : ts1 ≠ [] := by
        intro h
        subst h
        have : gl.1 = 0 := by rw [hgl]; rfl
        omega
      rw [if_pos ⟨by omega, by omega, hts1ne⟩]
    · rw [if_pos ⟨higl, hi⟩, ramp_getD _ _ _ _ (by omega)]
      rw [segTime_ge_last ts1 (0, s0) 0 i hchain higl]
      rw [Nat.cast_sub higl]

/-- Unfolding of tempoStep on a Set Tempo event. -/
lemma tempoStep_setTempo (res : ℕ) (acc : List (ℕ × ℚ)) (bpm : ℚ)
    (tick : ℕ) :
    tempoStep res acc (MidiEvent.setTempo bpm tick) =
      if tick = 0 then [(0, 60 / (bpm * res))]
      else
        match acc.getLast? with
        | none => acc
        | some (_, lastScale) =>
            if 60 / (bpm * res) ≠ lastScale then
              acc ++ [(tick, 60 / (bpm * res))]
            else acc := rfl

/-- tempoStep on a Set Tempo event at tick 0 resets the list. -/
lemma tempoStep_setTempo_zero (res : ℕ) (acc : List (ℕ × ℚ)) (bpm : ℚ)
    (tick : ℕ) (h0 : tick = 0) :
    tempoStep res acc (MidiEvent.setTempo bpm tick) =
      [(0, 60 / (bpm * res))] := by
  rw [tempoStep_setTempo, if_pos h0]

/-- tempoStep on a Set Tempo event at a positive tick appends the
breakpoint exactly when its scale differs from the last one. -/
lemma tempoStep_setTempo_pos (res : ℕ) (acc : List (ℕ × ℚ)) (bpm : ℚ)
    (tick : ℕ) (h0 : ¬ tick = 0) (gl : ℕ × ℚ)
    (hgl : acc.getLast? = some gl) :
    tempoStep res acc (MidiEvent.setTempo bpm tick) =
      if 60 / (bpm * res) ≠ gl.2 then acc ++ [(tick, 60 / (bpm * res))]
      else acc := by
  obtain ⟨glt, gls⟩ := gl
  rw [tempoStep_setTempo, if_neg h0, hgl]

/-- tempoStep leaves the list unchanged on non-tempo events. -/
lemma tempoStep_other (res : ℕ) (acc : List (ℕ × ℚ)) (e : MidiEvent)
    (h : ∀ bpm tick, e ≠ MidiEvent.setTempo bpm tick) :
    tempoStep res acc e = acc := by
  cases e with
  | setTempo bpm tick => exact absurd rfl (h bpm tick)
  | programChange c p t => rfl
  | noteOn c p v t => rfl
  | noteOff c p v t => rfl
  | pitchWheel c r t => rfl
  | other t => rfl

/-- One tempo step preserves the unconditional breakpoint invariants: the
list starts at tick 0 and no two adjacent breakpoints share a scale. -/
lemma tempoStep_inv (res : ℕ) (acc : List (ℕ × ℚ)) (e : MidiEvent)
    (h1 : acc.head?.map Prod.fst = some 0)
    (h2 : List.Chain' scaleNe acc) :
    (tempoStep res acc e).head?.map Prod.fst = some 0 ∧
      List.Chain' scaleNe (tempoStep res acc e) := by
  have hne : acc ≠ [] := by
    intro hnil
    rw [hnil] at h1
    simp at h1
  cases e with
  | setTempo bpm tick =>
      rcases Classical.em (tick = 0) with h0 | h0
      · rw [tempoStep_setTempo_zero res acc bpm tick h0]
        exact ⟨rfl, List.chain'_singleton _⟩
      · rw [tempoStep_setTempo_pos res acc bpm tick h0 _
          (List.getLast?_eq_getLast acc hne)]
        rcases Classical.em
            (60 / (bpm * res) ≠ (acc.getLast hne).2) with hs | hs
        · rw [if_pos hs]
          constructor
          · rw [List.head?_append]
            cases acc with
            | nil => exact absurd rfl hne
            | cons a l => simpa using h1
          · refine List.Chain'.append h2 (List.chain'_singleton _) ?_
            intro x hx y hy
            rw [List.getLast?_eq_getLast acc hne] at hx
            simp at hx hy
            subst hx
            subst hy
            exact fun hc => hs hc.symm
        · rw [if_neg hs]
          exact ⟨h1, h2⟩
  | programChange c p t => exact ⟨h1, h2⟩
  | noteOn c p v t => exact ⟨h1, h2⟩
  | noteOff c p v t => exact ⟨h1, h2⟩
  | pitchWheel c r t => exact ⟨h1, h2⟩
  | other t => exact ⟨h1, h2⟩

/-- Folding tempo events preserves the unconditional invariants. -/
lemma foldl_tempoStep_inv (res : ℕ) :
    ∀ (track : Track) (acc : List (ℕ × ℚ)),
    acc.head?.map Prod.fst = some 0 →
    List.Chain' scaleNe acc →
    (track.foldl (tempoStep res) acc).head?.map Prod.fst = some 0 ∧
      List.Chain' scaleNe (track.foldl (tempoStep res) acc) := by
  intro track
  induction track with
  | nil => intro acc h1 h2; exact ⟨h1, h2⟩
  | cons e track ih =>
      intro acc h1 h2
      obtain ⟨h1e, h2e⟩ := tempoStep_inv res acc e h1 h2
      exact ih _ h1e h2e

/-- Under the input tick order (and no conflicting simultaneous tempo
events at positive ticks), folding tempo events keeps breakpoint ticks
strictly increasing. -/
lemma foldl_tempoStep_ordered (res : ℕ) :
    ∀ (track : Track) (acc : List (ℕ × ℚ)),
    acc.head?.map Prod.fst = some 0 →
    List.Chain' scaleNe acc →
    List.Chain' tickLt acc →
    (tempoTicks track).Pairwise tickOrd →
    (∀ t ∈ tempoTicks track, ∀ gl ∈ acc.getLast?, gl.1 = 0 ∨ gl.1 < t) →
    List.Chain' tickLt (track.foldl (tempoStep res) acc) := by
  intro track
  induction track with
  | nil => intro acc _ _ h3 _ _; exact h3
  | cons e track ih =>
      intro acc h1 h2 h3 hpw hrel
      have hne : acc ≠ [] := by
        intro hnil
        rw [hnil] at h1
        simp at h1
      cases e with
      | setTempo bpm tick =>
          have htt : tempoTicks (MidiEvent.setTempo bpm tick :: track) =
              tick :: tempoTicks track := by
            simp [tempoTicks]
          rw [htt] at hpw hrel
          have hpw1 : (tempoTicks track).Pairwise tickOrd :=
            (List.pairwise_cons.mp hpw).2
          have hhead : ∀ t ∈ tempoTicks track, tickOrd tick t :=
            (List.pairwise_cons.mp hpw).1
          have hgl := hrel tick (List.mem_cons_self _ _)
          show List.Chain' tickLt
            (track.foldl (tempoStep res) (tempoStep res acc
              (MidiEvent.setTempo bpm tick)))
          obtain ⟨i1, i2⟩ :=
            tempoStep_inv res acc (MidiEvent.setTempo bpm tick) h1 h2
          rcases Classical.em (tick = 0) with h0 | h0
          · rw [tempoStep_setTempo_zero res acc bpm tick h0] at i1 i2 ⊢
            refine ih _ i1 i2 (List.chain'_singleton _) hpw1 ?_
            intro t _ gl hgl1
            simp at hgl1
            subst hgl1
            exact Or.inl rfl
          · have hlt : ∀ t ∈ tempoTicks track, tick < t := by
              intro t ht
              rcases hhead t ht with h | h
              · exact h
              · exact absurd h.1 h0
            rw [tempoStep_setTempo_pos res acc bpm tick h0 _
              (List.getLast?_eq_getLast acc hne)] at i1 i2 ⊢
            rcases Classical.em
                (60 / (bpm * res) ≠ (acc.getLast hne).2) with hs | hs
            · rw [if_pos hs] at i1 i2 ⊢
              have h3e : List.Chain' tickLt
                  (acc ++ [(tick, 60 / (bpm * res))]) := by
                refine List.Chain'.append h3 (List.chain'_singleton _) ?_
                intro x hx y hy
                rw [List.getLast?_eq_getLast acc hne] at hx
                simp at hx hy
                subst hx
                subst hy
                show (acc.getLast hne).1 < tick
                rcases hgl (acc.getLast hne)
                    (by rw [List.getLast?_eq_getLast acc hne]; rfl) with h | h
                · omega
                · exact h
              refine ih _ i1 i2 h3e hpw1 ?_
              intro t ht gl hgl1
              rw [List.getLast?_concat] at hgl1
              simp at hgl1
              subst hgl1
              exact Or.inr (hlt t ht)
            · rw [if_neg hs] at i1 i2 ⊢
              refine ih _ i1 i2 h3 hpw1 ?_
              intro t ht gl hgl1
              rcases hgl gl hgl1 with h | h
              · exact Or.inl h
              · exact Or.inr (lt_trans h (hlt t ht))
      | programChange c p t =>
          exact ih _ h1 h2 h3 (by simpa [tempoTicks] using hpw)
            (by intro t ht; exact hrel t (by simpa [tempoTicks] using ht))
      | noteOn c p v t =>
          exact ih _ h1 h2 h3 (by simpa [tempoTicks] using hpw)
            (by intro t ht; exact hrel t (by simpa [tempoTicks] using ht))
      | noteOff c p v t =>
          exact ih _ h1 h2 h3 (by simpa [tempoTicks] using hpw)
            (by intro t ht; exact hrel t (by simpa [tempoTicks] using ht))
      | pitchWheel c r t =>
          exact ih _ h1 h2 h3 (by simpa [tempoTicks] using hpw)
            (by intro t ht; exact hrel t (by simpa [tempoTicks] using ht))
      | other t =>
          exact ih _ h1 h2 h3 (by simpa [tempoTicks] using hpw)
            (by intro t ht; exact hrel t (by simpa [tempoTicks] using ht))

/-- The breakpoint list of _get_tempo_changes always starts at tick 0 and
never repeats a scale between adjacent breakpoints. -/
lemma tickScalesOf_inv (res : ℕ) (track : Track) :
    (tickScalesOf res track).head?.map Prod.fst = some 0 ∧
      List.Chain' scaleNe (tickScalesOf res track) :=
  foldl_tempoStep_inv res track _ rfl (List.chain'_singleton _)

/-- Under tick-ordered tempo events without conflicting simultaneous
changes, the breakpoint ticks are strictly increasing. -/
lemma tickScalesOf_ordered (res : ℕ) (track : Track)
    (hpw : (tempoTicks track).Pairwise tickOrd) :
    List.Chain' tickLt (tickScalesOf res track) := by
  refine foldl_tempoStep_ordered res track _ rfl
    (List.chain'_singleton _) (List.chain'_singleton _) hpw ?_
  intro t _ gl hgl
  simp at hgl
  subst hgl
  exact Or.inl rfl

/-- Every scale in the breakpoint list is positive when the resolution is
positive and all tempo events carry positive BPM. -/
lemma tickScalesOf_pos (res : ℕ) (track : Track) (hres : 0 < res)
    (hbpm : ∀ b t, MidiEvent.setTempo b t ∈ track → 0 < b) :
    ∀ p ∈ tickScalesOf res track, 0 < p.2 := by
  have hseed : (0 : ℚ) < 60 / (120 * res) := by
    apply div_pos (by norm_num)
    have : (0 : ℚ) < (res : ℚ) := by exact_mod_cast hres
    nlinarith
  unfold tickScalesOf
  have main : ∀ (tr : Track) (acc : List (ℕ × ℚ)),
      (∀ b t, MidiEvent.setTempo b t ∈ tr → 0 < b) →
      (∀ p ∈ acc, 0 < p.2) →
      ∀ p ∈ tr.foldl (tempoStep res) acc, 0 < p.2 := by
    intro tr
    induction tr with
    | nil => intro acc _ hacc; exact hacc
    | cons e tr ih =>
        intro acc hb hacc
        refine ih _ (fun b t hbt => hb b t (List.mem_cons_of_mem _ hbt)) ?_
        cases e with
        | setTempo bpm tick =>
            have hbpos : 0 < bpm := hb bpm tick (List.mem_cons_self _ _)
            have hscale : (0 : ℚ) < 60 / (bpm * res) := by
              apply div_pos (by norm_num)
              have h1 : (0 : ℚ) < (res : ℚ) := by exact_mod_cast hres
              nlinarith
            rcases Classical.em (tick = 0) with h0 | h0
            · rw [tempoStep_setTempo_zero res acc bpm tick h0]
              intro p hp
              simp at hp
              subst hp
              exact hscale
            · cases hgl : acc.getLast? with
              | none =>
                  rw [tempoStep_setTempo, if_neg h0, hgl]
                  exact hacc
              | some gl =>
                  rw [tempoStep_setTempo_pos res acc bpm tick h0 gl hgl]
                  rcases Classical.em (60 / (bpm * res) ≠ gl.2) with hs | hs
                  · rw [if_pos hs]
                    intro p hp
                    rcases List.mem_append.mp hp with h | h
                    · exact hacc p h
                    · simp at h
                      subst h
                      exact hscale
                  · rw [if_neg hs]
                    exact hacc
        | programChange c p t => exact hacc
        | noteOn c p v t => exact hacc
        | noteOff c p v t => exact hacc
        | pitchWheel c r t => exact hacc
        | other t => exact hacc
  refine main track _ hbpm ?_
  intro p hp
  simp at hp
  subst hp
  exact hseed

/-- Every breakpoint tick is 0 or the tick of some tempo event of the
track. -/
lemma tickScalesOf_ticks (res : ℕ) (track : Track) :
    ∀ p ∈ tickScalesOf res track, p.1 = 0 ∨ p.1 ∈ tempoTicks track := by
  unfold tickScalesOf
  have main : ∀ (tr : Track) (S : List ℕ) (acc : List (ℕ × ℚ)),
      (∀ q ∈ acc, q.1 = 0 ∨ q.1 ∈ S) →
      (∀ t ∈ tempoTicks tr, t ∈ S) →
      ∀ p ∈ tr.foldl (tempoStep res) acc, p.1 = 0 ∨ p.1 ∈ S := by
    intro tr
    induction tr with
    | nil => intro S acc hacc _; exact hacc
    | cons e tr ih =>
        intro S acc hacc hS
        have hStail : ∀ t ∈ tempoTicks tr, t ∈ S := by
          intro t ht
          refine hS t ?_
          cases e <;> simp [tempoTicks] at ht ⊢ <;> tauto
        refine ih S (tempoStep res acc e) ?_ hStail
        intro q hq
        cases e with
        | setTempo bpm tick =>
            have htick : tick ∈ S := by
              refine hS tick ?_
              simp [tempoTicks]
            rcases Classical.em (tick = 0) with h0 | h0
            · rw [tempoStep_setTempo_zero res acc bpm tick h0] at hq
              simp at hq
              subst hq
              exact Or.inl rfl
            · cases hgl : acc.getLast? with
              | none =>
                  rw [tempoStep_setTempo, if_neg h0, hgl] at hq
                  exact hacc q hq
              | some gl =>
                  rw [tempoStep_setTempo_pos res acc bpm tick h0 gl hgl] at hq
                  rcases Classical.em (60 / (bpm * res) ≠ gl.2) with hs | hs
                  · rw [if_pos hs] at hq
                    rcases List.mem_append.mp hq with h | h
                    · exact hacc q h
                    · simp at h
                      subst h
                      exact Or.inr htick
                  · rw [if_neg hs] at hq
                    exact hacc q hq
        | programChange c pr t => exact hacc q hq
        | noteOn c pr v t => exact hacc q hq
        | noteOff c pr v t => exact hacc q hq
        | pitchWheel c r t => exact hacc q hq
        | other t => exact hacc q hq
  refine main track (tempoTicks track) _ ?_ (fun t ht => ht)
  intro p hp
  simp at hp
  subst hp
  exact Or.inl rfl

/-- Tempo event ticks are event ticks. -/
lemma tempoTicks_sub (track : Track) :
    ∀ t ∈ tempoTicks track, t ∈ track.map MidiEvent.tick := by
  intro t ht
  unfold tempoTicks at ht
  obtain ⟨e, he, hmatch⟩ := List.mem_filterMap.mp ht
  cases e with
  | setTempo b t0 =>
      simp at hmatch
      subst hmatch
      exact List.mem_map.mpr ⟨_, he, rfl⟩
  | programChange c p t0 => simp at hmatch
  | noteOn c p v t0 => simp at hmatch
  | noteOff c p v t0 => simp at hmatch
  | pitchWheel c r t0 => simp at hmatch
  | other t0 => simp at hmatch

/-- Members of a list are bounded by a fold of max, and the seed is too. -/
lemma foldl_max_bound (l : List ℕ) :
    ∀ init : ℕ, init ≤ l.foldl max init ∧ ∀ a ∈ l, a ≤ l.foldl max init := by
  induction l with
  | nil => intro init; exact ⟨le_refl _, by intro a ha; simp at ha⟩
  | cons b l ih =>
      intro init
      have h1 := (ih (max init b)).1
      constructor
      · exact le_trans (le_max_left _ _) h1
      · intro a ha
        rcases List.mem_cons.mp ha with h | h
        · subst h
          exact le_trans (le_max_right init a) h1
        · exact (ih (max init b)).2 a h

/-- The max_tick of __init__ strictly bounds every event tick of every
track. -/
lemma maxTickOf_bound (tracks : List Track) (maxTick : ℕ)
    (h : maxTickOf tracks = some maxTick) :
    ∀ tr ∈ tracks, ∀ e ∈ tr, e.tick < maxTick := by
  unfold maxTickOf at h
  rcases Classical.em
      (tracks.isEmpty ∨ tracks.any (fun tr => tr.isEmpty) = true) with hc | hc
  · rw [if_pos hc] at h
    exact absurd h (by simp)
  · rw [if_neg hc] at h
    have hM := Option.some_inj.mp h
    intro tr htr e he
    have h1 : e.tick ≤ (tr.map MidiEvent.tick).foldl max 0 :=
      (foldl_max_bound _ 0).2 _ (List.mem_map.mpr ⟨e, he, rfl⟩)
    have h2 : (tr.map MidiEvent.tick).foldl max 0 ≤
        (tracks.map fun tr => (tr.map MidiEvent.tick).foldl max 0).foldl
          max 0 :=
      (foldl_max_bound _ 0).2 _ (List.mem_map.mpr ⟨tr, htr, rfl⟩)
    omega

/-- maxTickOf yields a positive bound when it succeeds. -/
lemma maxTickOf_pos (tracks : List Track) (maxTick : ℕ)
    (h : maxTickOf tracks = some maxTick) : 0 < maxTick := by
  unfold maxTickOf at h
  rcases Classical.em
      (tracks.isEmpty ∨ tracks.any (fun tr => tr.isEmpty) = true) with hc | hc
  · rw [if_pos hc] at h
    exact absurd h (by simp)
  · rw [if_neg hc] at h
    have hM := Option.some_inj.mp h
    omega

/-- Unfolding of the container constructor on a nonempty track list. -/
lemma mk?_cons (res : ℕ) (track0 : Track) (rest : List Track) :
    PrettyMIDI.mk? res (track0 :: rest) =
      (do
        let maxTick ← maxTickOf (track0 :: rest)
        let ttt ← updateTickToTime (tickScalesOf res track0) maxTick
        some (⟨res, tickScalesOf res track0, ttt,
          getInstruments ttt (track0 :: rest)⟩ : PrettyMIDI)) := rfl

/-- Inversion of a successful container construction. -/
lemma mk?_inv (res : ℕ) (track0 : Track) (rest : List Track)
    (pm : PrettyMIDI)
    (hpm : PrettyMIDI.mk? res (track0 :: rest) = some pm) :
    ∃ maxTick, maxTickOf (track0 :: rest) = some maxTick ∧
      pm.resolution = res ∧
      pm.tick_scales = tickScalesOf res track0 ∧
      updateTickToTime (tickScalesOf res track0) maxTick =
        some pm.tick_to_time ∧
      pm.instruments = getInstruments pm.tick_to_time (track0 :: rest) := by
  rw [mk?_cons] at hpm
  simp [Option.bind_eq_some] at hpm
  obtain ⟨maxTick, hmax, ttt, htt, hmk⟩ := hpm
  subst hmk
  exact ⟨maxTick, hmax, rfl, rfl, htt, rfl⟩

/-- Every breakpoint tick lies inside a lookup array built by __init__. -/
lemma tickScales_lt_maxTick (res : ℕ) (track0 : Track)
    (rest : List Track) (maxTick : ℕ)
    (hmax : maxTickOf (track0 :: rest) = some maxTick) :
    ∀ p ∈ tickScalesOf res track0, p.1 < maxTick := by
  intro p hp
  rcases tickScalesOf_ticks res track0 p hp with h | h
  · have := maxTickOf_pos _ _ hmax
    omega
  · obtain ⟨e, he, hte⟩ := List.mem_map.mp (tempoTicks_sub track0 p.1 h)
    have := maxTickOf_bound _ _ hmax track0 (List.mem_cons_self _ _) e he
    omega

/-- getD on a replicate of zeros is zero at any index. -/
lemma getD_replicate_zero (n i : ℕ) : (List.replicate n (0 : ℕ)).getD i 0 = 0 := by
  rcases lt_or_ge i n with h | h
  · rw [List.getD, List.get?_eq_getElem?, List.getElem?_replicate, if_pos h]
    rfl
  · rw [List.getD, List.get?_eq_getElem?, List.getElem?_replicate,
      if_neg (by omega)]
    rfl

/-- getD after set at the same index inside the list. -/
lemma getD_set_self (l : List ℕ) (i a d : ℕ) (h : i < l.length) :
    (l.set i a).getD i d = a := by
  simp [List.getD, List.getElem?_set_self', h]

/-- Unfolding of processEvent on a Note On event. -/
lemma processEvent_noteOn (tt : List ℚ) (st : ReconState)
    (ch pitch v tk : ℕ) :
    processEvent tt st (MidiEvent.noteOn ch pitch v tk) =
      if 0 < v then
        { st with last_note_on :=
            (dictSet (st.current_instrument.getD ch 0, decide (ch = 9), pitch)
              (tt.getD tk 0, v) st.last_note_on) }
      else handleNoteOff tt st ch pitch 0 tk := rfl

/-- Unfolding of processEvent on a Program Change event. -/
lemma processEvent_programChange (tt : List ℚ) (st : ReconState)
    (ch p tk : ℕ) :
    processEvent tt st (MidiEvent.programChange ch p tk) =
      { st with current_instrument := st.current_instrument.set ch p } := rfl

/-- Unfolding of processEvent on a Note Off event. -/
lemma processEvent_noteOff (tt : List ℚ) (st : ReconState)
    (ch pitch v tk : ℕ) :
    processEvent tt st (MidiEvent.noteOff ch pitch v tk) =
      handleNoteOff tt st ch pitch v tk := rfl

/-- A note-off whose key misses the pending table is ignored. -/
lemma handleNoteOff_miss (tt : List ℚ) (st : ReconState)
    (ch pitch evv tk : ℕ)
    (h : dictGet (st.current_instrument.getD ch 0, decide (ch = 9), pitch)
      st.last_note_on = none) :
    handleNoteOff tt st ch pitch evv tk = st := by
  simp only [handleNoteOff, h]

/-- C2 amended core: a Note On followed by a Program Change to a different
program and a Note Off on the same channel and pitch produces no
instrument and no note, because the note-off lookup key uses the program
current at note-off time. -/
theorem C2_amended (ch pitch v w p2 t1 t2 t3 : ℕ) (ttt : List ℚ)
    (hch : ch < 16) (hv : 0 < v) (hp2 : p2 ≠ 0) :
    getInstruments ttt [[MidiEvent.noteOn ch pitch v t1,
      MidiEvent.programChange ch p2 t2,
      MidiEvent.noteOff ch pitch w t3]] = [] := by
  unfold getInstruments
  simp only [List.foldl_cons, List.foldl_nil]
  rw [processEvent_noteOn, if_pos hv, processEvent_programChange,
    processEvent_noteOff]
  rw [handleNoteOff_miss]
  have hget0 : (List.replicate 16 (0 : ℕ)).getD ch 0 = 0 :=
    getD_replicate_zero 16 ch
  show dictGet
      (((List.replicate 16 (0 : ℕ)).set ch p2).getD ch 0, decide (ch = 9),
        pitch)
      (dictSet ((List.replicate 16 (0 : ℕ)).getD ch 0, decide (ch = 9), pitch)
        (ttt.getD t1 0, v) []) = none
  rw [hget0, getD_set_self _ _ _ _ (by simpa using hch)]
  unfold dictGet dictSet
  simp only [List.filter_nil, List.find?]
  rw [show (decide (((0 : ℕ), decide (ch = 9), pitch) =
      (p2, decide (ch = 9), pitch))) = false by
    simp [Prod.ext_iff]
    omega]
  rfl

/-- Claim C2 witness: the amended behavior at a concrete input. -/
theorem C2_amended_witness :
    getInstruments [0, 1, 2] [[MidiEvent.noteOn 0 60 100 0,
      MidiEvent.programChange 0 5 1, MidiEvent.noteOff 0 60 64 2]] = [] :=
  C2_amended 0 60 100 64 5 0 1 2 [0, 1, 2] (by norm_num) (by norm_num)
    (by norm_num)

/-- Claim C2 counterexample: the claim says a Note is still emitted and
assigned to the instrument keyed by the note-on program; in fact the whole
construction yields no instrument at all on such an input. -/
theorem C2_counterexample :
    (PrettyMIDI.mk? 1 [[MidiEvent.noteOn 0 60 100 0,
        MidiEvent.programChange 0 5 1,
        MidiEvent.noteOff 0 60 64 2]]).map (fun pm => pm.instruments) =
      some [] := by
  decide

/-- Claim C1: the source is inconsistent with itself at a matched note-off
that creates a new instrument: line 151 builds the Note from the
terminating event velocity (0 for a zero-velocity Note On) instead of the
recorded onset velocity (100 here), which line 135 had just fetched. -/
theorem C1_create_velocity_bug :
    (PrettyMIDI.mk? 1 [[MidiEvent.noteOn 0 60 100 0,
        MidiEvent.noteOn 0 60 0 3]]).map
      (fun pm => pm.instruments.map fun i => i.events.map Note.velocity) =
      some [[0]] ∧ (0 : ℕ) ≠ 100 := ⟨by decide, by decide⟩

/-- Claim C3 counterexample: on a track whose largest event tick is 10, the
lookup array has 11 entries, not the 12 the claim asks for (max_tick + 1
with max_tick = largest tick + 1). -/
theorem C3_counterexample :
    ((PrettyMIDI.mk? 120 [[MidiEvent.other 10]]).map fun pm =>
      pm.tick_to_time.length) = some 11 ∧ (11 : ℕ) ≠ 10 + 1 + 1 :=
  ⟨by decide, by decide⟩

/-- Claim C3 amended: the lookup array has exactly max_tick entries
(max_tick = largest event tick over all tracks, plus one), indices 0 to
max_tick - 1; between consecutive breakpoints (t0,s0),(t1,s1) index i holds
time_at(t0) + s0*(i - t0), and the final breakpoint rate extends through
index max_tick - 1. -/
theorem C3_amended (res : ℕ) (track0 : Track) (rest : List Track)
    (pm : PrettyMIDI) (maxTick : ℕ)
    (hpw : (tempoTicks track0).Pairwise tickOrd)
    (hmax : maxTickOf (track0 :: rest) = some maxTick)
    (hpm : PrettyMIDI.mk? res (track0 :: rest) = some pm) :
    pm.tick_to_time.length = maxTick ∧
    (∀ pq ∈ pm.tick_scales.zip pm.tick_scales.tail, ∀ i : ℕ,
      pq.1.1 ≤ i → i ≤ pq.2.1 →
      pm.tick_to_time.getD i 0 =
        pm.tick_to_time.getD pq.1.1 0 + pq.1.2 * ((i : ℚ) - pq.1.1)) ∧
    (∀ gl, pm.tick_scales.getLast? = some gl → ∀ i : ℕ,
      gl.1 ≤ i → i < maxTick →
      pm.tick_to_time.getD i 0 =
        pm.tick_to_time.getD gl.1 0 + gl.2 * ((i : ℚ) - gl.1)) := by
  obtain ⟨mt, hmt, _, hscales, htt, _⟩ := mk?_inv res track0 rest pm hpm
  have hmteq : mt = maxTick := by
    rw [hmt] at hmax
    exact Option.some_inj.mp hmax
  subst hmteq
  have hbound := tickScales_lt_maxTick res track0 rest mt hmt
  have hord := tickScalesOf_ordered res track0 hpw
  have hinv := tickScalesOf_inv res track0
  cases hts : tickScalesOf res track0 with
  | nil =>
      rw [hts] at hinv
      simp at hinv
  | cons x ts1 =>
      obtain ⟨x1, x2⟩ := x
      rw [hts] at hord hbound htt
      have hx1 : x1 = 0 := by
        have h1 := hinv.1
        rw [hts] at h1
        simpa using h1
      subst hx1
      obtain ⟨arr, harr, hlen, hget⟩ :=
        updateTickToTime_spec x2 ts1 mt hord hbound
      rw [harr] at htt
      have harr2 : arr = pm.tick_to_time := Option.some_inj.mp htt
      subst harr2
      rw [hscales, hts]
      refine ⟨hlen, ?_, ?_⟩
      · intro pq hpq i hi1 hi2
        have hmem := List.of_mem_zip hpq
        have hp2mem : pq.2 ∈ (0, x2) :: ts1 :=
          List.mem_of_mem_tail hmem.2
        have hi2lt : i < mt := by
          have := hbound pq.2 hp2mem
          omega
        have hp1lt : pq.1.1 < mt := hbound pq.1 hmem.1
        rw [hget i hi2lt, hget pq.1.1 hp1lt]
        exact segTime_pair ((0, x2) :: ts1) 0 pq hpq i hord hi1 hi2
      · intro gl hgl i hi1 hi2
        have hglast : gl = ((0, x2) :: ts1).getLast (List.cons_ne_nil _ _) := by
          rw [List.getLast?_eq_getLast _ (List.cons_ne_nil _ _)] at hgl
          exact (Option.some_inj.mp hgl).symm
        subst hglast
        have hgllt : (((0, x2) :: ts1).getLast (List.cons_ne_nil _ _)).1 <
            mt := hbound _ (List.getLast_mem _)
        rw [hget i hi2, hget _ hgllt]
        rw [segTime_ge_last ts1 (0, x2) 0 i hord hi1]

/-- Claim C3 witness: the amended statement at a concrete two-breakpoint
input. -/
theorem C3_amended_witness :
    ([0, 1/2, 1, 2, 3, 4] : List ℚ).length = 6 ∧
    ([0, 1/2, 1, 2, 3, 4] : List ℚ).getD 1 0 =
      ([0, 1/2, 1, 2, 3, 4] : List ℚ).getD 0 0 +
        (1 / 2 : ℚ) * ((1 : ℚ) - ((0 : ℕ) : ℚ)) ∧
    ([0, 1/2, 1, 2, 3, 4] : List ℚ).getD 4 0 =
      ([0, 1/2, 1, 2, 3, 4] : List ℚ).getD 2 0 +
        (1 : ℚ) * ((4 : ℚ) - ((2 : ℕ) : ℚ)) := by
  have h := C3_amended 1 [MidiEvent.setTempo 60 2, MidiEvent.other 5] []
    ⟨1, [(0, 1/2), (2, 1)], [0, 1/2, 1, 2, 3, 4], []⟩ 6
    (by simp [tempoTicks])
    (by with_unfolding_all decide) (by with_unfolding_all decide)
  exact ⟨h.1, h.2.1 ((0, 1/2), (2, 1)) (by with_unfolding_all decide) 1
    (by norm_num) (by norm_num),
    h.2.2 (2, 1) (by with_unfolding_all decide) 4 (by norm_num)
    (by norm_num)⟩

/-- Claim C5 counterexample: two tempo events at the same positive tick
with different BPM append two breakpoints at the same tick, so breakpoint
ticks are not strictly increasing. -/
theorem C5_counterexample :
    tickScalesOf 1 [MidiEvent.setTempo 60 5, MidiEvent.setTempo 30 5] =
      [(0, 1/2), (5, 1), (5, 2)] ∧
    ¬ List.Chain' tickLt
      (tickScalesOf 1 [MidiEvent.setTempo 60 5, MidiEvent.setTempo 30 5]) := by
  have h : tickScalesOf 1 [MidiEvent.setTempo 60 5, MidiEvent.setTempo 30 5] =
      [(0, 1/2), (5, 1), (5, 2)] := by with_unfolding_all decide
  refine ⟨h, ?_⟩
  rw [h]
  intro hc
  have h2 := (List.chain'_cons.mp (List.chain'_cons.mp hc).2).1
  simp [tickLt] at h2

/-- Claim C5 amended: unconditionally the first breakpoint is at tick 0 and
no two consecutive breakpoints share a scale; when the tempo events of the
track are in nondecreasing tick order with no two at the same positive tick
(conflicting simultaneous tempo events being unsupported), the breakpoint
ticks are strictly increasing. -/
theorem C5_amended (res : ℕ) (track : Track) :
    ((tickScalesOf res track).head?.map Prod.fst = some 0 ∧
      List.Chain' scaleNe (tickScalesOf res track)) ∧
    ((tempoTicks track).Pairwise tickOrd →
      List.Chain' tickLt (tickScalesOf res track)) :=
  ⟨tickScalesOf_inv res track, tickScalesOf_ordered res track⟩

/-- Claim C5 witness: the ordered conclusion at a concrete input. -/
theorem C5_amended_witness :
    List.Chain' tickLt (tickScalesOf 1 [MidiEvent.setTempo 60 2]) :=
  (C5_amended 1 [MidiEvent.setTempo 60 2]).2 (by simp [tempoTicks])

/-- Claim C6: the tick-to-time lookup built from positive-BPM tempo events
maps tick 0 to time 0 and is non-decreasing over its whole index range. -/
theorem C6_time_monotone (res : ℕ) (track : Track) (maxTick : ℕ)
    (arr : List ℚ)
    (hres : 0 < res)
    (hbpm : ∀ b t, MidiEvent.setTempo b t ∈ track → 0 < b)
    (hpw : (tempoTicks track).Pairwise tickOrd)
    (hbound : ∀ p ∈ tickScalesOf res track, p.1 < maxTick)
    (harr : updateTickToTime (tickScalesOf res track) maxTick = some arr) :
    (0 < maxTick → arr.getD 0 0 = 0) ∧
      ∀ i j, i ≤ j → j < maxTick → arr.getD i 0 ≤ arr.getD j 0 := by
  have hinv := tickScalesOf_inv res track
  have hord := tickScalesOf_ordered res track hpw
  have hpos := tickScalesOf_pos res track hres hbpm
  cases hts : tickScalesOf res track with
  | nil =>
      rw [hts] at hinv
      simp at hinv
  | cons x ts1 =>
      obtain ⟨x1, x2⟩ := x
      rw [hts] at hord hpos hbound harr
      have hx1 : x1 = 0 := by
        have h1 := hinv.1
        rw [hts] at h1
        simpa using h1
      subst hx1
      obtain ⟨arr2, harr2, hlen2, hget2⟩ :=
        updateTickToTime_spec x2 ts1 maxTick hord hbound
      rw [harr2] at harr
      have harr3 : arr2 = arr := Option.some_inj.mp harr
      subst harr3
      constructor
      · intro h0
        rw [hget2 0 h0]
        exact segTime_at_head (0, x2) ts1 0 hord
      · intro i j hij hj
        rw [hget2 i (by omega), hget2 j hj]
        exact segTime_mono ts1 (0, x2) 0 i j hord
          (fun p hp => le_of_lt (hpos p hp)) (by omega) hij

/-- Claim C6 witness: time 0 and monotonicity at a concrete tempo map. -/
theorem C6_time_monotone_witness :
    ([0, 1/4, 1/2, 3/4, 5/4, 7/4] : List ℚ).getD 0 0 = 0 ∧
    ([0, 1/4, 1/2, 3/4, 5/4, 7/4] : List ℚ).getD 2 0 ≤
      ([0, 1/4, 1/2, 3/4, 5/4, 7/4] : List ℚ).getD 5 0 := by
  have h := C6_time_monotone 2 [MidiEvent.setTempo 60 3] 6
    [0, 1/4, 1/2, 3/4, 5/4, 7/4]
    (by norm_num)
    (by intro b t hbt; simp at hbt; rw [hbt.1]; norm_num)
    (by simp [tempoTicks])
    (by with_unfolding_all decide) (by with_unfolding_all decide)
  exact ⟨h.1 (by norm_num), h.2 2 5 (by norm_num) (by norm_num)⟩

/-- Claim C9: for a single tempo breakpoint at tick 0 constructed from BPM
b, get_tempii recomputes exactly b (rational arithmetic is exact). -/
theorem C9_roundtrip (pm : PrettyMIDI) (b : ℚ)
    (hb : 0 < b) (hres : 0 < pm.resolution)
    (hts : pm.tick_scales = [(0, 60 / (b * pm.resolution))]) :
    (pm.get_tempii).2 = [b] := by
  unfold PrettyMIDI.get_tempii
  rw [hts]
  simp only [List.map_cons, List.map_nil]
  congr 1
  have hbne : b ≠ 0 := ne_of_gt hb
  have hrne : (pm.resolution : ℚ) ≠ 0 := by
    have h1 : pm.resolution ≠ 0 := by omega
    exact_mod_cast h1
  field_simp
  ring

/-- Claim C9 witness: recomputing the BPM of a 120 BPM breakpoint at
resolution 480. -/
theorem C9_roundtrip_witness :
    (PrettyMIDI.get_tempii ⟨480, [(0, 60 / (120 * 480))], [0], []⟩).2 =
      [120] :=
  C9_roundtrip ⟨480, [(0, 60 / (120 * 480))], [0], []⟩ 120 (by norm_num)
    (by norm_num) (by norm_num)

/-- Claim C8 counterexample: an empty track makes construction raise
(modelled none), and a file with no completed notes makes the container
piano roll raise; processing does not always complete. -/
theorem C8_counterexample :
    PrettyMIDI.mk? 1 [[]] = none ∧
    ((PrettyMIDI.mk? 1 [[MidiEvent.other 0]]).bind fun pm =>
      pm.get_piano_roll none) = none :=
  ⟨by decide, by with_unfolding_all decide⟩

/-- Claim C7 counterexample: a container holding one non-drum note of zero
length synthesizes to an all-zero mix; after normalization the peak is not
1 (numpy divides 0 by 0 and produces NaNs; the rational model yields 0). -/
theorem C7_counterexample :
    (PrettyMIDI.synthesize (fun _ => 1) (fun _ _ => 1) 1
        ⟨1, [(0, 1/2)], [0], [⟨0, false, [⟨100, 60, 0, 0⟩], []⟩]⟩).map
      maxAbs = some 0 ∧ (0 : ℚ) ≠ 1 :=
  ⟨by with_unfolding_all decide, by with_unfolding_all decide⟩

/-- Claim C4 counterexample: a one-note instrument resampled onto a
three-entry times grid yields three columns, not two. -/
theorem C4_counterexample :
    (Instrument.get_piano_roll ⟨0, false, [⟨100, 60, 0, 1/50⟩], []⟩
        (some [0, 1/100, 1/50])).map List.length = some 3 ∧
      (3 : ℕ) ≠ 3 - 1 := ⟨by with_unfolding_all decide, by decide⟩

/-- Instrument keys are unchanged by maps that only touch note or bend
lists. -/
lemma instKeys_map (l : List Instrument) (f : Instrument → Instrument)
    (hf : ∀ i ∈ l, (f i).program = i.program ∧ (f i).is_drum = i.is_drum) :
    instKeys (l.map f) = instKeys l := by
  unfold instKeys
  rw [List.map_map]
  exact List.map_congr_left fun i hi => by
    have := hf i hi
    simp [Function.comp, this.1, this.2]

/-- A note-off whose key hits the pending table, with no key-matching
instrument present, creates the instrument and seeds it with a note built
from the terminating event velocity (source line 151). -/
lemma handleNoteOff_instruments_new (tt : List ℚ) (st : ReconState)
    (ch pitch evv tk : ℕ) (start : ℚ) (vel : ℕ)
    (h : dictGet (st.current_instrument.getD ch 0, decide (ch = 9), pitch)
      st.last_note_on = some (start, vel))
    (hex : (st.instruments.any fun i =>
      i.program = st.current_instrument.getD ch 0 ∧
        i.is_drum = decide (ch = 9)) = false) :
    (handleNoteOff tt st ch pitch evv tk).instruments =
      st.instruments ++
        [⟨st.current_instrument.getD ch 0, decide (ch = 9),
          [⟨evv, pitch, start, tt.getD tk 0⟩], []⟩] := by
  simp only [handleNoteOff, h, hex, Bool.false_eq_true, if_false]

/-- A note-off whose key hits the pending table appends the recorded note
to every key-matching instrument when one exists. -/
lemma handleNoteOff_instruments_app (tt : List ℚ) (st : ReconState)
    (ch pitch evv tk : ℕ) (start : ℚ) (vel : ℕ)
    (h : dictGet (st.current_instrument.getD ch 0, decide (ch = 9), pitch)
      st.last_note_on = some (start, vel))
    (hex : (st.instruments.any fun i =>
      i.program = st.current_instrument.getD ch 0 ∧
        i.is_drum = decide (ch = 9)) = true) :
    (handleNoteOff tt st ch pitch evv tk).instruments =
      st.instruments.map fun i =>
        if i.program = st.current_instrument.getD ch 0 ∧
            i.is_drum = decide (ch = 9) then
          { i with events := i.events ++ [⟨vel, pitch, start, tt.getD tk 0⟩] }
        else i := by
  simp only [handleNoteOff, h, hex, if_true]

/-- A note-off step preserves distinctness of instrument keys. -/
lemma handleNoteOff_nodup (tt : List ℚ) (st : ReconState)
    (ch pitch evv tk : ℕ)
    (h : (instKeys st.instruments).Nodup) :
    (instKeys (handleNoteOff tt st ch pitch evv tk).instruments).Nodup := by
  cases hget : dictGet (st.current_instrument.getD ch 0, decide (ch = 9),
      pitch) st.last_note_on with
  | none => rw [handleNoteOff_miss tt st ch pitch evv tk hget]; exact h
  | some pr =>
      obtain ⟨start, vel⟩ := pr
      cases hex : st.instruments.any fun i =>
          i.program = st.current_instrument.getD ch 0 ∧
            i.is_drum = decide (ch = 9) with
      | false =>
          rw [handleNoteOff_instruments_new tt st ch pitch evv tk start vel
            hget hex]
          unfold instKeys
          rw [List.map_append]
          simp only [List.map_cons, List.map_nil]
          rw [List.nodup_append]
          refine ⟨h, List.nodup_singleton _, ?_⟩
          intro k hk
          simp only [List.mem_singleton]
          intro hkeq
          subst hkeq
          obtain ⟨i, hi, hik⟩ := List.mem_map.mp hk
          have hno : ¬ (i.program = st.current_instrument.getD ch 0 ∧
              i.is_drum = decide (ch = 9)) := by
            intro hc
            have hany : (st.instruments.any fun i =>
                i.program = st.current_instrument.getD ch 0 ∧
                  i.is_drum = decide (ch = 9)) = true :=
              List.any_eq_true.mpr ⟨i, hi, decide_eq_true hc⟩
            rw [hex] at hany
            exact Bool.false_ne_true hany
          apply hno
          constructor
          · have := congrArg Prod.fst hik
            simpa using this
          · have := congrArg Prod.snd hik
            simpa using this
      | true =>
          rw [handleNoteOff_instruments_app tt st ch pitch evv tk start vel
            hget hex]
          rw [instKeys_map]
          · exact h
          · intro i _
            rcases Classical.em
                (i.program = st.current_instrument.getD ch 0 ∧
                  i.is_drum = decide (ch = 9)) with hc | hc
            · rw [if_pos hc]
              exact ⟨rfl, rfl⟩
            · rw [if_neg hc]
              exact ⟨rfl, rfl⟩

/-- Any reconstruction step preserves distinctness of instrument keys. -/
lemma processEvent_nodup (tt : List ℚ) (st : ReconState) (e : MidiEvent)
    (h : (instKeys st.instruments).Nodup) :
    (instKeys (processEvent tt st e).instruments).Nodup := by
  cases e with
  | setTempo b t => exact h
  | other t => exact h
  | programChange ch p t => exact h
  | noteOn ch pitch v t =>
      rw [processEvent_noteOn]
      rcases Classical.em (0 < v) with hv | hv
      · rw [if_pos hv]
        exact h
      · rw [if_neg hv]
        exact handleNoteOff_nodup tt st ch pitch 0 t h
  | noteOff ch pitch v t =>
      rw [processEvent_noteOff]
      exact handleNoteOff_nodup tt st ch pitch v t h
  | pitchWheel ch r t =>
      show (instKeys (st.instruments.map _)).Nodup
      rw [instKeys_map]
      · exact h
      · intro i _
        rcases Classical.em (i.program = st.current_instrument.getD ch 0 ∧
            i.is_drum = decide (ch = 9)) with hc | hc
        · rw [if_pos hc]
          exact ⟨rfl, rfl⟩
        · rw [if_neg hc]
          exact ⟨rfl, rfl⟩

/-- Folding a track preserves distinctness of instrument keys. -/
lemma foldl_processEvent_nodup (tt : List ℚ) :
    ∀ (events : List MidiEvent) (st : ReconState),
    (instKeys st.instruments).Nodup →
    (instKeys (events.foldl (processEvent tt) st).instruments).Nodup := by
  intro events
  induction events with
  | nil => intro st h; exact h
  | cons e events ih =>
      intro st h
      exact ih _ (processEvent_nodup tt st e h)

/-- The reconstructed instrument list never holds two instruments with the
same (program, is_drum) key. -/
lemma getInstruments_nodup (tt : List ℚ) (tracks : List Track) :
    (instKeys (getInstruments tt tracks)).Nodup := by
  unfold getInstruments
  have main : ∀ (ts : List Track) (insts : List Instrument),
      (instKeys insts).Nodup →
      (instKeys (ts.foldl
        (fun insts track =>
          (track.foldl (processEvent tt)
            ⟨insts, [], List.replicate 16 0⟩).instruments)
        insts)).Nodup := by
    intro ts
    induction ts with
    | nil => intro insts h; exact h
    | cons tr ts ih =>
        intro insts h
        exact ih _ (foldl_processEvent_nodup tt tr ⟨insts, [], _⟩ h)
  exact main tracks [] (by simp [instKeys])

/-- With distinct keys, exactly one instrument matches a key that is
matched at all. -/
lemma countP_key_eq_one (l : List Instrument) (p : ℕ) (d : Bool)
    (hnd : (instKeys l).Nodup)
    (hex : l.any (fun i => i.program = p ∧ i.is_drum = d) = true) :
    l.countP (fun i => decide (i.program = p ∧ i.is_drum = d)) = 1 := by
  induction l with
  | nil => simp at hex
  | cons i l ih =>
      have hnd2 : ((i.program, i.is_drum) ∉ instKeys l) ∧
          (instKeys l).Nodup := by
        unfold instKeys at hnd ⊢
        rw [List.map_cons] at hnd
        exact List.nodup_cons.mp hnd
      rcases Classical.em (i.program = p ∧ i.is_drum = d) with hc | hc
      · rw [List.countP_cons_of_pos _ _ (by simpa using hc)]
        have hzero : l.countP
            (fun i => decide (i.program = p ∧ i.is_drum = d)) = 0 := by
          rw [List.countP_eq_zero]
          intro j hj
          simp only [decide_eq_true_eq]
          intro hjc
          have hkey : (i.program, i.is_drum) ∈ instKeys l := by
            unfold instKeys
            refine List.mem_map.mpr ⟨j, hj, ?_⟩
            rw [hjc.1, hjc.2, hc.1, hc.2]
          exact hnd2.1 hkey
        omega
      · rw [List.countP_cons_of_neg _ _ (by simpa using hc)]
        refine ih hnd2.2 ?_
        rcases List.any_eq_true.mp hex with ⟨j, hj, hjc⟩
        rcases List.mem_cons.mp hj with h1 | h1
        · subst h1
          exact absurd (by simpa using hjc) hc
        · exact List.any_eq_true.mpr ⟨j, h1, hjc⟩

/-- Appending one note to every key-matching instrument grows the total
note count by the number of matching instruments. -/
lemma totalNotes_map_append (l : List Instrument) (p : ℕ) (d : Bool)
    (note : Note) :
    totalNotes (l.map fun i =>
      if i.program = p ∧ i.is_drum = d then
        { i with events := i.events ++ [note] }
      else i) =
    totalNotes l +
      l.countP (fun i => decide (i.program = p ∧ i.is_drum = d)) := by
  induction l with
  | nil => simp [totalNotes]
  | cons i l ih =>
      unfold totalNotes at ih ⊢
      simp only [List.map_cons, List.map_map, List.sum_cons] at ih ⊢
      rcases Classical.em (i.program = p ∧ i.is_drum = d) with hc | hc
      · rw [if_pos hc, List.countP_cons_of_pos _ _ (by simpa using hc)]
        simp only [List.length_append, List.length_cons, List.length_nil]
        omega
      · rw [if_neg hc, List.countP_cons_of_neg _ _ (by simpa using hc)]
        omega

/-- Claim C10: no two instruments ever share a (program, is_drum) key —
after reconstruction, and as an invariant of every step — and a matched
note-off adds exactly one note to the container in total. -/
theorem C10_unique_instruments :
    (∀ (tt : List ℚ) (tracks : List Track),
      (instKeys (getInstruments tt tracks)).Nodup) ∧
    (∀ (tt : List ℚ) (st : ReconState) (e : MidiEvent),
      (instKeys st.instruments).Nodup →
      (instKeys (processEvent tt st e).instruments).Nodup) ∧
    (∀ (tt : List ℚ) (st : ReconState) (e : MidiEvent),
      (instKeys st.instruments).Nodup →
      isMatchedOff st e →
      totalNotes (processEvent tt st e).instruments =
        totalNotes st.instruments + 1) := by
  refine ⟨getInstruments_nodup, processEvent_nodup, ?_⟩
  intro tt st e hnd hm
  have main : ∀ (ch pitch evv tk : ℕ),
      (dictGet (st.current_instrument.getD ch 0, decide (ch = 9), pitch)
        st.last_note_on).isSome = true →
      totalNotes (handleNoteOff tt st ch pitch evv tk).instruments =
        totalNotes st.instruments + 1 := by
    intro ch pitch evv tk hsome
    cases hget : dictGet (st.current_instrument.getD ch 0, decide (ch = 9),
        pitch) st.last_note_on with
    | none => rw [hget] at hsome; simp at hsome
    | some pr =>
        obtain ⟨start, vel⟩ := pr
        cases hex : st.instruments.any fun i =>
            i.program = st.current_instrument.getD ch 0 ∧
              i.is_drum = decide (ch = 9) with
        | false =>
            rw [handleNoteOff_instruments_new tt st ch pitch evv tk start vel
              hget hex]
            unfold totalNotes
            rw [List.map_append]
            simp
        | true =>
            rw [handleNoteOff_instruments_app tt st ch pitch evv tk start vel
              hget hex]
            rw [totalNotes_map_append, countP_key_eq_one _ _ _ hnd hex]
  cases e with
  | setTempo b t => exact absurd hm (by simp [isMatchedOff])
  | other t => exact absurd hm (by simp [isMatchedOff])
  | programChange ch p t => exact absurd hm (by simp [isMatchedOff])
  | pitchWheel ch r t => exact absurd hm (by simp [isMatchedOff])
  | noteOn ch pitch v t =>
      unfold isMatchedOff at hm
      obtain ⟨hv, hsome⟩ := hm
      subst hv
      rw [processEvent_noteOn, if_neg (by omega)]
      exact main ch pitch 0 t hsome
  | noteOff ch pitch v t =>
      unfold isMatchedOff at hm
      rw [processEvent_noteOff]
      exact main ch pitch v t hm

/-- Claim C10 witness: key distinctness on a concrete reconstruction and
the one-note increment on a concrete matched note-off. -/
theorem C10_unique_instruments_witness :
    (instKeys (getInstruments [0, 1, 2, 3]
      [[MidiEvent.noteOn 0 60 100 0, MidiEvent.noteOff 0 60 0 1,
        MidiEvent.noteOn 9 40 90 2, MidiEvent.noteOn 9 40 0 3]])).Nodup ∧
    totalNotes (processEvent [0, 1, 2, 3]
      ⟨[⟨0, false, [⟨100, 60, 0, 1⟩], []⟩],
        [((0, false, 62), (0, 80))], List.replicate 16 0⟩
      (MidiEvent.noteOff 0 62 0 3)).instruments =
      totalNotes [⟨0, false, [⟨100, 60, 0, 1⟩], []⟩] + 1 := by
  constructor
  · exact C10_unique_instruments.1 [0, 1, 2, 3] _
  · exact C10_unique_instruments.2.2 [0, 1, 2, 3] _ _
      (by decide) (by decide)

/-- getD on a replicate with the replicated element as default. -/
lemma getD_replicate_self {α : Type} (x : α) (n i : ℕ) :
    (List.replicate n x).getD i x = x := by
  rw [List.getD, List.get?_eq_getElem?, List.getElem?_replicate]
  rcases lt_or_ge i n with h | h
  · rw [if_pos h]; rfl
  · rw [if_neg (by omega)]; rfl

/-- A zero roll has one all-zero column at every in-range index. -/
lemma zeroRoll_getD (w n : ℕ) (h : n < w) :
    (zeroRoll w).getD n [] = List.replicate 128 0 := by
  unfold zeroRoll
  rw [List.getD, List.get?_eq_getElem?, List.getElem?_replicate, if_pos h]
  rfl

lemma zeroRoll_length (w : ℕ) : (zeroRoll w).length = w := by
  simp [zeroRoll]

/-- The per-row mean of any column range of an all-zero roll is the zero
column. -/
lemma meanCol_zeroRoll (w a b : ℕ) :
    meanCol (zeroRoll w) a b = List.replicate 128 0 := by
  have hlen : (meanCol (zeroRoll w) a b).length = 128 := by
    simp [meanCol]
  refine List.eq_replicate_iff.mpr ⟨hlen, ?_⟩
  intro x hx
  simp only [meanCol, zeroRoll, List.mem_map, List.mem_range] at hx
  obtain ⟨r, _, hrx⟩ := hx
  rw [← hrx, List.drop_replicate, List.take_replicate, List.map_replicate,
    getD_replicate_self]
  norm_num [List.sum_replicate, ratTrunc, toInt16]

lemma resampleRoll_length (ts : List ℚ) (m : List (List ℤ)) :
    (resampleRoll ts m).length = ts.length := by
  simp [resampleRoll]

/-- The columns of the resampled roll: interval means up to the second-last
grid entry, and an untouched zero column at the last grid entry. -/
lemma resampleRoll_getD (ts : List ℚ) (m : List (List ℤ)) (n : ℕ)
    (hn : n < ts.length) :
    (resampleRoll ts m).getD n [] =
      if n + 1 < ts.length then
        meanCol m ((ratTrunc (ts.getD n 0 * 100)).toNat)
          ((ratTrunc (ts.getD (n + 1) 0 * 100)).toNat)
      else List.replicate 128 0 := by
  unfold resampleRoll
  rw [List.getD, List.get?_eq_getElem?, List.getElem?_map,
    List.getElem?_range hn]
  rfl

/-- Claim C4, amended: with a supplied times grid the resampled roll of an
instrument with at least one note has exactly one column per grid entry
(not one fewer); the final column is never written and stays all-zero, and
column n (for n + 1 < len(times)) is the per-row int16 mean of the native
100 Hz columns from trunc(times[n]*100) to trunc(times[n+1]*100). -/
theorem C4_amended (inst : Instrument) (times : List ℚ)
    (native M : List (List ℤ))
    (hne : inst.events ≠ [])
    (hn : inst.get_piano_roll none = some native)
    (ht : inst.get_piano_roll (some times) = some M) :
    M.length = times.length ∧
      (times ≠ [] → M.getD (times.length - 1) [] = List.replicate 128 0) ∧
      ∀ n, n + 1 < times.length →
        M.getD n [] =
          meanCol native ((ratTrunc (times.getD n 0 * 100)).toNat)
            ((ratTrunc (times.getD (n + 1) 0 * 100)).toNat) := by
  simp only [Instrument.get_piano_roll, if_neg hne] at hn ht
  by_cases hw : ratTrunc (100 * maxEndOf inst.events) < 0
  · rw [if_pos hw] at hn
    exact absurd hn (by simp)
  · rw [if_neg hw] at hn ht
    cases hdrum : inst.is_drum with
    | true =>
        simp only [hdrum, if_true] at hn ht
        simp at hn ht
        refine ⟨by rw [← ht, zeroRoll_length], ?_, ?_⟩
        · intro hne2
          have hlt : times.length - 1 < times.length := by
            cases times with
            | nil => exact absurd rfl hne2
            | cons a l => simp
          rw [← ht, zeroRoll_getD _ _ hlt]
        · intro n hn2
          rw [← ht, ← hn, zeroRoll_getD _ _ (by omega), meanCol_zeroRoll]
    | false =>
        simp only [hdrum, Bool.false_eq_true, if_false] at hn ht
        simp [Option.bind_eq_some] at hn ht
        obtain ⟨bent, hb, hM⟩ := ht
        rw [hn] at hb
        have hbe : bent = native := (Option.some_inj.mp hb).symm
        have hMr : M = resampleRoll times native := by
          rw [← hM, hbe]
        subst hMr
        refine ⟨resampleRoll_length _ _, ?_, ?_⟩
        · intro hne2
          have hlt : times.length - 1 < times.length := by
            cases times with
            | nil => exact absurd rfl hne2
            | cons a l => simp
          rw [resampleRoll_getD _ _ _ hlt, if_neg (by omega)]
        · intro n hn2
          rw [resampleRoll_getD _ _ _ (by omega), if_pos hn2]

set_option maxRecDepth 8000 in
/-- Claim C4 witness: the amended column structure at a concrete one-note
instrument and a three-entry grid. -/
theorem C4_amended_witness :
    (resampleRoll [0, 1/100, 1/50]
        (List.replicate 2 ((List.replicate 128 (0 : ℤ)).set 60 100))).length
      = 3 ∧
    (resampleRoll [0, 1/100, 1/50]
        (List.replicate 2 ((List.replicate 128 (0 : ℤ)).set 60 100))).getD 2
        [] = List.replicate 128 0 ∧
    (resampleRoll [0, 1/100, 1/50]
        (List.replicate 2 ((List.replicate 128 (0 : ℤ)).set 60 100))).getD 0
        [] =
      meanCol (List.replicate 2 ((List.replicate 128 (0 : ℤ)).set 60 100))
        ((ratTrunc (([0, 1/100, 1/50] : List ℚ).getD 0 0 * 100)).toNat)
        ((ratTrunc (([0, 1/100, 1/50] : List ℚ).getD 1 0 * 100)).toNat) := by
  have h := C4_amended ⟨0, false, [⟨100, 60, 0, 1/50⟩], []⟩ [0, 1/100, 1/50]
    (List.replicate 2 ((List.replicate 128 (0 : ℤ)).set 60 100))
    (resampleRoll [0, 1/100, 1/50]
      (List.replicate 2 ((List.replicate 128 (0 : ℤ)).set 60 100)))
    (by decide) (by with_unfolding_all decide) (by with_unfolding_all decide)
  exact ⟨h.1, by simpa using h.2.1 (by decide),
    by simpa using h.2.2 0 (by decide)⟩

/-- A fold of max over rationals bounds its seed and every member. -/
lemma foldl_max_bound_q (l : List ℚ) (a : ℚ) :
    a ≤ l.foldl max a ∧ ∀ x ∈ l, x ≤ l.foldl max a := by
  induction l generalizing a with
  | nil => exact ⟨le_refl a, by simp⟩
  | cons y l ih =>
      constructor
      · exact le_trans (le_max_left a y) (ih (max a y)).1
      · intro x hx
        rcases List.mem_cons.mp hx with h | h
        · subst h
          exact le_trans (le_max_right a x) (ih (max a x)).1
        · exact (ih (max a y)).2 x h

/-- The largest note end of any note list is nonnegative (the fold over a
nonempty sequence of nonnegative ends is seeded with 0). -/
lemma maxEndOf_nonneg (events : List Note) : 0 ≤ maxEndOf events :=
  (foldl_max_bound_q (events.map Note.end_) 0).1

/-- Every note end is at most the largest note end. -/
lemma le_maxEndOf (events : List Note) (n : Note) (hn : n ∈ events) :
    n.end_ ≤ maxEndOf events :=
  (foldl_max_bound_q (events.map Note.end_) 0).2 n.end_
    (List.mem_map.mpr ⟨n, hn, rfl⟩)

/-- Truncation toward zero of a nonnegative rational is nonnegative. -/
lemma ratTrunc_nonneg (q : ℚ) (h : 0 ≤ q) : 0 ≤ ratTrunc q := by
  unfold ratTrunc
  rw [if_pos h]
  exact Int.floor_nonneg.mpr h

/-- A drum instrument with at least one note synthesizes to the zero
buffer sized by the largest note end. -/
lemma synthesize_drum_eq (envExp : ℕ → ℚ) (noteWave : ℕ → ℕ → ℚ)
    (fs : ℕ) (i : Instrument) (hd : i.is_drum = true)
    (hne : i.events ≠ []) :
    Instrument.synthesize envExp noteWave fs i =
      some (List.replicate
        (ratTrunc ((fs : ℚ) * (maxEndOf i.events + 1))).toNat (0 : ℚ)) := by
  have h0 : ¬ ratTrunc ((fs : ℚ) * (maxEndOf i.events + 1)) < 0 := by
    have h1 : (0 : ℚ) ≤ (fs : ℚ) * (maxEndOf i.events + 1) := by
      have := maxEndOf_nonneg i.events
      positivity
    have := ratTrunc_nonneg _ h1
    omega
  simp only [Instrument.synthesize, if_neg hne, if_neg h0, hd]
  simp

/-- The per-instrument waveform spans at least fs samples (one second per
unit of the largest note end, plus one). -/
lemma fs_le_synthLen (fs : ℕ) (q : ℚ) (hq : 0 ≤ q) :
    fs ≤ (ratTrunc ((fs : ℚ) * (q + 1))).toNat := by
  have h1 : ((fs : ℤ) : ℚ) ≤ (fs : ℚ) * (q + 1) := by
    push_cast
    nlinarith [mul_nonneg (Nat.cast_nonneg fs : (0 : ℚ) ≤ (fs : ℚ)) hq]
  have h2 : (fs : ℤ) ≤ ratTrunc ((fs : ℚ) * (q + 1)) := by
    unfold ratTrunc
    rw [if_pos (mul_nonneg (Nat.cast_nonneg fs) (by linarith))]
    exact Int.le_floor.mpr h1
  omega

/-- A mapM over Option succeeds and preserves length when every element
maps to some value. -/
lemma mapM_some_of_all_isSome {α β : Type} (f : α → Option β) (l : List α)
    (h : ∀ a ∈ l, (f a).isSome) :
    ∃ w, l.mapM f = some w ∧ w.length = l.length := by
  induction l with
  | nil => exact ⟨[], rfl, rfl⟩
  | cons a l ih =>
      obtain ⟨b, hb⟩ := Option.isSome_iff_exists.mp (h a (by simp))
      obtain ⟨w, hw, hlen⟩ := ih (fun x hx => h x (by simp [hx]))
      refine ⟨b :: w, ?_, by simp [hlen]⟩
      rw [List.mapM_cons, hb, hw]
      rfl

/-- Dividing a buffer elementwise by a positive constant divides its peak
absolute value by that constant (accumulator-generalized form). -/
lemma foldl_maxAbs_map_div (l : List ℚ) (c : ℚ) (hc : 0 < c) :
    ∀ a : ℚ,
      (l.map fun x => x / c).foldl (fun acc x => max acc |x|) (a / c) =
        (l.foldl (fun acc x => max acc |x|) a) / c := by
  induction l with
  | nil => intro a; rfl
  | cons x l ih =>
      intro a
      have h1 : |x / c| = |x| / c := by
        rw [abs_div, abs_of_pos hc]
      simp only [List.map_cons, List.foldl_cons]
      rw [h1, max_div_div_right (le_of_lt hc), ih]

/-- np.abs(x / c).max() = np.abs(x).max() / c for positive c. -/
lemma maxAbs_map_div (l : List ℚ) (c : ℚ) (hc : 0 < c) :
    maxAbs (l.map fun x => x / c) = maxAbs l / c := by
  have h := foldl_maxAbs_map_div l c hc 0
  rwa [zero_div] at h

/-- The premix summation loop preserves the length of the allocated
output buffer. -/
lemma mixFold_length (ws : List (List ℚ)) :
    ∀ acc : List ℚ,
      (ws.foldl (fun acc w =>
        List.zipWith (· + ·) (acc.take w.length) w ++ acc.drop w.length)
        acc).length = acc.length := by
  induction ws with
  | nil => intro acc; rfl
  | cons w ws ih =>
      intro acc
      rw [List.foldl_cons, ih]
      simp only [List.length_append, List.length_zipWith, List.length_take,
        List.length_drop]
      omega

/-- Every element of a successful mapM image comes from some element of the
source list. -/
lemma mapM_mem_of_mem {α β : Type} (f : α → Option β) :
    ∀ (l : List α) (w : List β), l.mapM f = some w →
      ∀ b ∈ w, ∃ a ∈ l, f a = some b := by
  intro l
  induction l with
  | nil =>
      intro w hw b hb
      simp only [List.mapM_nil] at hw
      have hw2 : ([] : List β) = w := by simpa using hw
      rw [← hw2] at hb
      simp at hb
  | cons a l ih =>
      intro w hw b hb
      simp only [List.mapM_cons] at hw
      simp [Option.bind_eq_some] at hw
      obtain ⟨b0, hb0, bs, hbs, hweq⟩ := hw
      rw [← hweq] at hb
      rcases List.mem_cons.mp hb with h | h
      · exact ⟨a, by simp, by rw [hb0, h]⟩
      · obtain ⟨a1, ha1, hfa1⟩ := ih bs hbs b h
        exact ⟨a1, by simp [ha1], hfa1⟩

/-- When every instrument synthesizes to a waveform with at least one
sample, the premix exists and is nonempty. -/
lemma premix_some_of (envExp : ℕ → ℚ) (noteWave : ℕ → ℕ → ℚ) (fs : ℕ)
    (pm : PrettyMIDI)
    (h : ∀ i ∈ pm.instruments, ∃ w,
      Instrument.synthesize envExp noteWave fs i = some w ∧ 1 ≤ w.length)
    (hne : pm.instruments ≠ []) :
    ∃ mix, pm.premix envExp noteWave fs = some mix ∧ 1 ≤ mix.length := by
  obtain ⟨ws, hws, hlen⟩ := mapM_some_of_all_isSome
    (Instrument.synthesize envExp noteWave fs) pm.instruments
    (fun i hi => by
      obtain ⟨w, hw, -⟩ := h i hi
      simp [hw])
  have hwsne : ws ≠ [] := by
    intro h0
    rw [h0] at hlen
    exact hne (List.length_eq_zero.mp hlen.symm)
  have hpre : pm.premix envExp noteWave fs =
      some (ws.foldl (fun acc w =>
        List.zipWith (· + ·) (acc.take w.length) w ++ acc.drop w.length)
        (List.replicate ((ws.map List.length).foldl max 0) (0 : ℚ))) := by
    unfold PrettyMIDI.premix
    rw [hws]
    simp [hwsne]
  refine ⟨_, hpre, ?_⟩
  rw [mixFold_length, List.length_replicate]
  obtain ⟨w0, hw0⟩ := List.exists_mem_of_ne_nil ws hwsne
  obtain ⟨i0, hi0, hfi0⟩ := mapM_mem_of_mem
    (Instrument.synthesize envExp noteWave fs) pm.instruments ws hws w0 hw0
  obtain ⟨w0q, hw0q, hl0⟩ := h i0 hi0
  have hww : w0 = w0q := Option.some_inj.mp (hfi0.symm.trans hw0q)
  have hle := (foldl_max_bound (ws.map List.length) 0).2 w0.length
    (List.mem_map.mpr ⟨w0, hw0, rfl⟩)
  rw [hww] at hle
  omega

/-- Container synthesis succeeds on a nonempty premix (the peak lookup
np.abs(x).max() has samples to inspect). -/
lemma synthesize_isSome_of_premix (envExp : ℕ → ℚ) (noteWave : ℕ → ℕ → ℚ)
    (fs : ℕ) (pm : PrettyMIDI) (mix : List ℚ)
    (hpre : pm.premix envExp noteWave fs = some mix) (hne : mix ≠ []) :
    (pm.synthesize envExp noteWave fs).isSome := by
  unfold PrettyMIDI.synthesize
  rw [hpre]
  simp [hne]

/-- Claim C7, amended: an all-drum container (with a positive sample rate
and every instrument holding at least one note with nonnegative end times,
as reconstruction produces) synthesizes without failure — the premix is
the nonempty zero buffer and the numpy division yields NaNs with a runtime
warning, modelled as a defined zero buffer, not a raised error; and the
normalized peak is exactly 1 whenever the premix peak is positive (a
non-drum note alone does not suffice: a zero-length or zero-velocity note
leaves a zero premix, whose normalization does not have peak 1, refuting
the claim as stated). -/
theorem C7_amended (envExp : ℕ → ℚ) (noteWave : ℕ → ℕ → ℚ) (fs : ℕ)
    (pm : PrettyMIDI) :
    (0 < fs → pm.instruments ≠ [] →
      (∀ i ∈ pm.instruments, i.is_drum = true ∧ i.events ≠ [] ∧
        ∀ n ∈ i.events, 0 ≤ n.end_) →
      (pm.synthesize envExp noteWave fs).isSome) ∧
    (∀ mix, pm.premix envExp noteWave fs = some mix → 0 < maxAbs mix →
      (pm.synthesize envExp noteWave fs).map maxAbs = some 1) := by
  constructor
  · intro hfs hne hall
    have h : ∀ i ∈ pm.instruments, ∃ w,
        Instrument.synthesize envExp noteWave fs i = some w ∧
          1 ≤ w.length := by
      intro i hi
      refine ⟨_, synthesize_drum_eq envExp noteWave fs i (hall i hi).1
        (hall i hi).2.1, ?_⟩
      rw [List.length_replicate]
      have := fs_le_synthLen fs (maxEndOf i.events) (maxEndOf_nonneg _)
      omega
    obtain ⟨mix, hpre, hlen⟩ := premix_some_of envExp noteWave fs pm h hne
    exact synthesize_isSome_of_premix envExp noteWave fs pm mix hpre
      (by
        intro h0
        rw [h0] at hlen
        simp at hlen)
  · intro mix hpre hpos
    have hmne : mix ≠ [] := by
      intro h0
      rw [h0] at hpos
      simp [maxAbs] at hpos
    unfold PrettyMIDI.synthesize
    rw [hpre]
    show ((if mix = [] then none else
      some (mix.map fun x => x / maxAbs mix)).map maxAbs) = some 1
    rw [if_neg hmne]
    simp only [Option.map_some']
    congr 1
    rw [maxAbs_map_div mix (maxAbs mix) hpos]
    exact div_self (ne_of_gt hpos)

set_option maxRecDepth 8000 in
/-- Claim C7 witness: an all-drum one-instrument container synthesizes, and
a container with one positive-length velocity-1 note has normalized peak
exactly 1 under the constant-1 waveform and envelope. -/
theorem C7_amended_witness :
    (PrettyMIDI.synthesize (fun _ => 1) (fun _ _ => 1) 1
        ⟨1, [(0, 1/2)], [0], [⟨0, true, [⟨100, 60, 0, 0⟩], []⟩]⟩).isSome ∧
    (PrettyMIDI.synthesize (fun _ => 1) (fun _ _ => 1) 10
        ⟨1, [(0, 1/2)], [0, 1/2],
          [⟨0, false, [⟨1, 69, 0, 1⟩], []⟩]⟩).map maxAbs = some 1 := by
  constructor
  · exact (C7_amended (fun _ => 1) (fun _ _ => 1) 1
      ⟨1, [(0, 1/2)], [0], [⟨0, true, [⟨100, 60, 0, 0⟩], []⟩]⟩).1
      (by norm_num) (by decide) (by with_unfolding_all decide)
  · exact (C7_amended (fun _ => 1) (fun _ _ => 1) 10
      ⟨1, [(0, 1/2)], [0, 1/2], [⟨0, false, [⟨1, 69, 0, 1⟩], []⟩]⟩).2
      [1, 1, 1, 1, 1, 1, 1, 1, 1, 1, 0, 0, 0, 0, 0, 0, 0, 0, 0, 0]
      (by with_unfolding_all decide) (by with_unfolding_all decide)

lemma linspaceQ_length (a b : ℚ) (n : ℕ) : (linspaceQ a b n).length = n := by
  unfold linspaceQ
  split
  · simp [*]
  · simp

/-- Truncation toward zero is monotone on nonnegative rationals. -/
lemma ratTrunc_le_ratTrunc (x y : ℚ) (h0 : 0 ≤ x) (hxy : x ≤ y) :
    ratTrunc x ≤ ratTrunc y := by
  unfold ratTrunc
  rw [if_pos h0, if_pos (le_trans h0 hxy)]
  exact Int.floor_le_floor hxy

/-- Slice addition succeeds and preserves the buffer length whenever the
right-hand side has exactly the clipped slice length. -/
lemma sliceAddAssign_isSome (a rhs : List ℚ) (s e : ℕ)
    (h : rhs.length =
      max (min s a.length) (min e a.length) - min s a.length) :
    ∃ r, sliceAddAssign a s e rhs = some r ∧ r.length = a.length := by
  simp only [sliceAddAssign]
  rw [if_pos h]
  refine ⟨_, rfl, ?_⟩
  simp only [List.length_append, List.length_take, List.length_zipWith,
    List.length_drop]
  omega

/-- Slice multiplication succeeds and preserves the buffer length whenever
the right-hand side has exactly the clipped slice length. -/
lemma sliceMulAssign_isSome (a rhs : List ℚ) (s e : ℕ)
    (h : rhs.length =
      max (min s a.length) (min e a.length) - min s a.length) :
    ∃ r, sliceMulAssign a s e rhs = some r ∧ r.length = a.length := by
  simp only [sliceMulAssign]
  rw [if_pos h]
  refine ⟨_, rfl, ?_⟩
  simp only [List.length_append, List.length_take, List.length_zipWith,
    List.length_drop]
  omega

/-- One pitch-bend step succeeds and preserves the column count when the
segment times are nonnegative and ordered and its end column fits the
matrix. -/
lemma bendStep_isSome (m : List (List ℤ)) (t0 b0 t1 b1 : ℚ)
    (h0 : 0 ≤ t0) (h1 : 0 ≤ t1) (hle : t0 ≤ t1)
    (hb : (ratTrunc (t1 * 100)).toNat ≤ m.length) :
    ∃ m', bendStep m ((t0, b0), (t1, b1)) = some m' ∧
      m'.length = m.length := by
  simp only [bendStep]
  by_cases hs : |b0| < 1 / 8192
  · rw [if_pos hs]
    exact ⟨m, rfl, rfl⟩
  · rw [if_neg hs]
    have ha0 : 0 ≤ ratTrunc (t0 * 100) :=
      ratTrunc_nonneg _ (mul_nonneg h0 (by norm_num))
    have hb0 : 0 ≤ ratTrunc (t1 * 100) :=
      ratTrunc_nonneg _ (mul_nonneg h1 (by norm_num))
    rw [if_neg (by omega : ¬ (ratTrunc (t0 * 100) < 0 ∨
      ratTrunc (t1 * 100) < 0))]
    have hab : ratTrunc (t0 * 100) ≤ ratTrunc (t1 * 100) :=
      ratTrunc_le_ratTrunc _ _ (mul_nonneg h0 (by norm_num))
        (mul_le_mul_of_nonneg_right hle (by norm_num))
    by_cases hbi : (if 0 ≤ b0 then ⌊b0⌋ else -⌊-b0⌋) = 0
    · rw [if_pos hbi]
      refine ⟨_, rfl, ?_⟩
      simp
    · rw [if_neg hbi, if_neg (by omega : ¬ ratTrunc (t1 * 100) <
        ratTrunc (t0 * 100)), if_neg (by omega :
        ¬ min (ratTrunc (t1 * 100)).toNat m.length -
            min (ratTrunc (t0 * 100)).toNat m.length ≠
          (ratTrunc (t1 * 100)).toNat - (ratTrunc (t0 * 100)).toNat)]
      refine ⟨_, rfl, ?_⟩
      simp

/-- The whole pitch-bend loop succeeds on a time-sorted bend list whose
times are nonnegative and bounded by the track end covered by the
matrix. -/
lemma bendSegs_total (endT : ℚ) (hendT : 0 ≤ endT) (pc : List (ℚ × ℚ)) :
    ∀ m : List (List ℤ),
      List.Chain' (fun p q : ℚ × ℚ => p.1 ≤ q.1) pc →
      (∀ p ∈ pc, 0 ≤ p.1 ∧ p.1 ≤ endT) →
      (ratTrunc (endT * 100)).toNat ≤ m.length →
      ∃ m', (pc.zip (pc.tail ++ [(endT, 0)])).foldlM bendStep m =
        some m' := by
  induction pc with
  | nil => intro m _ _ _; exact ⟨m, rfl⟩
  | cons p pc ih =>
      intro m hchain hmem hW
      obtain ⟨t0, b0⟩ := p
      cases pc with
      | nil =>
          have hm := hmem (t0, b0) (by simp)
          obtain ⟨m1, hm1, hlen1⟩ := bendStep_isSome m t0 b0 endT 0
            hm.1 hendT hm.2 hW
          refine ⟨m1, ?_⟩
          simp only [List.tail_cons, List.nil_append, List.zip_cons_cons,
            List.zip_nil_right, List.foldlM_cons, List.foldlM_nil, hm1]
          rfl
      | cons q pc2 =>
          obtain ⟨t1, b1⟩ := q
          have hm0 := hmem (t0, b0) (by simp)
          have hm1q := hmem (t1, b1) (by simp)
          have hle : t0 ≤ t1 := (List.chain'_cons.mp hchain).1
          have hbb : (ratTrunc (t1 * 100)).toNat ≤ m.length := by
            have := ratTrunc_le_ratTrunc (t1 * 100) (endT * 100)
              (mul_nonneg hm1q.1 (by norm_num))
              (mul_le_mul_of_nonneg_right hm1q.2 (by norm_num))
            omega
          obtain ⟨m1, hm1, hlen1⟩ := bendStep_isSome m t0 b0 t1 b1
            hm0.1 hm1q.1 hle hbb
          obtain ⟨m', hm'⟩ := ih m1 (List.chain'_cons.mp hchain).2
            (fun x hx => hmem x (by simp [hx]))
            (by rw [hlen1]; exact hW)
          refine ⟨m', ?_⟩
          simp only [List.tail_cons, List.cons_append, List.zip_cons_cons,
            List.foldlM_cons]
          rw [hm1]
          simpa using hm'

lemma addNoteBlock_length (m : List (List ℤ)) (note : Note) :
    (addNoteBlock m note).length = m.length := by
  simp [addNoteBlock]

lemma foldl_addNoteBlock_length (notes : List Note) :
    ∀ m : List (List ℤ), (notes.foldl addNoteBlock m).length = m.length := by
  induction notes with
  | nil => intro m; rfl
  | cons n notes ih =>
      intro m
      rw [List.foldl_cons, ih, addNoteBlock_length]

/-- Instrument.get_piano_roll never raises on a wellformed instrument. -/
lemma get_piano_roll_inst_isSome (i : Instrument) (hwf : i.wf)
    (times : Option (List ℚ)) : (i.get_piano_roll times).isSome := by
  obtain ⟨hne, hev, hchain, hpc⟩ := hwf
  have hend : 0 ≤ maxEndOf i.events := maxEndOf_nonneg _
  have hw : ¬ ratTrunc (100 * maxEndOf i.events) < 0 := by
    have := ratTrunc_nonneg (100 * maxEndOf i.events)
      (mul_nonneg (by norm_num) hend)
    omega
  simp only [Instrument.get_piano_roll, if_neg hne, if_neg hw]
  cases hdrum : i.is_drum with
  | true => cases times <;> simp [hdrum]
  | false =>
      simp only [hdrum, Bool.false_eq_true, if_false]
      have hWle : (ratTrunc (maxEndOf i.events * 100)).toNat ≤
          (i.events.foldl addNoteBlock
            (zeroRoll (ratTrunc (100 * maxEndOf i.events)).toNat)).length := by
        rw [foldl_addNoteBlock_length, zeroRoll_length, mul_comm]
      obtain ⟨bent, hbent⟩ := bendSegs_total (maxEndOf i.events) hend
        i.pitch_changes _ hchain hpc hWle
      rw [hbent]
      cases times <;> simp

/-- The aggregate piano roll never raises when the instrument list is
nonempty and every instrument is wellformed. -/
lemma get_piano_roll_pm_isSome (pm : PrettyMIDI) (times : Option (List ℚ))
    (hne : pm.instruments ≠ []) (hwf : ∀ i ∈ pm.instruments, i.wf) :
    (pm.get_piano_roll times).isSome := by
  obtain ⟨rolls, hrolls, hlen⟩ := mapM_some_of_all_isSome
    (fun i => i.get_piano_roll times) pm.instruments
    (fun i hi => get_piano_roll_inst_isSome i (hwf i hi) times)
  have hrne : rolls ≠ [] := by
    intro h0
    rw [h0] at hlen
    exact hne (List.length_eq_zero.mp hlen.symm)
  simp only [PrettyMIDI.get_piano_roll]
  rw [hrolls]
  simp [hrne]

/-- A monadic fold over Option succeeds, with its invariant preserved to
the end, when every step succeeds from every state satisfying the
invariant. -/
lemma foldlM_some {α β : Type} (f : β → α → Option β) (P : β → Prop) :
    ∀ (l : List α) (b : β), P b →
      (∀ x a, P x → a ∈ l → ∃ y, f x a = some y ∧ P y) →
      ∃ w, l.foldlM f b = some w ∧ P w := by
  intro l
  induction l with
  | nil => intro b hb _; exact ⟨b, rfl, hb⟩
  | cons a l ih =>
      intro b hb h
      obtain ⟨y, hy, hPy⟩ := h b a hb (by simp)
      obtain ⟨w, hw, hPw⟩ :=
        ih y hPy (fun x c hx hc => h x c hx (by simp [hc]))
      refine ⟨w, ?_, hPw⟩
      rw [List.foldlM_cons, hy]
      simpa using hw

/-- The per-note synthesis body succeeds and preserves the buffer length
once the note's sample window fits the buffer and the fade has positive
length. -/
lemma synthStep_isSome (envExp : ℕ → ℚ) (noteWave : ℕ → ℕ → ℚ)
    (fadeLen : ℕ) (fade : List ℚ) (hfade : fade.length = fadeLen)
    (hfl : fadeLen ≠ 0) (buf : List ℚ) (pitch vel S E : ℕ)
    (hE : E ≤ buf.length) :
    ∃ y,
      ((if fadeLen < E - S then
          sliceMulAssign ((List.range (E - S)).map envExp)
            (if fadeLen = 0 then 0 else E - S - fadeLen) (E - S) fade
        else some (List.zipWith (· * ·) ((List.range (E - S)).map envExp)
          (linspaceQ 1 0 (E - S)))).bind
        fun env1 =>
          sliceAddAssign buf S E
            (List.zipWith (· * ·) (env1.map (· * (vel : ℚ)))
              ((List.range (E - S)).map (noteWave pitch)))) = some y ∧
      y.length = buf.length := by
  by_cases hfn : fadeLen < E - S
  · rw [if_pos hfn, if_neg hfl]
    obtain ⟨env1, he1, hl1⟩ := sliceMulAssign_isSome
      ((List.range (E - S)).map envExp) fade (E - S - fadeLen) (E - S)
      (by simp only [List.length_map, List.length_range, hfade]; omega)
    simp only [List.length_map, List.length_range] at hl1
    obtain ⟨y, hy, hylen⟩ := sliceAddAssign_isSome buf
      (List.zipWith (· * ·) (env1.map (· * (vel : ℚ)))
        ((List.range (E - S)).map (noteWave pitch))) S E
      (by simp only [List.length_zipWith, List.length_map,
            List.length_range, hl1]; omega)
    refine ⟨y, ?_, hylen⟩
    rw [he1]
    exact hy
  · rw [if_neg hfn]
    obtain ⟨y, hy, hylen⟩ := sliceAddAssign_isSome buf
      (List.zipWith (· * ·)
        ((List.zipWith (· * ·) ((List.range (E - S)).map envExp)
          (linspaceQ 1 0 (E - S))).map (· * (vel : ℚ)))
        ((List.range (E - S)).map (noteWave pitch))) S E
      (by simp only [List.length_zipWith, List.length_map,
            List.length_range, linspaceQ_length]; omega)
    exact ⟨y, hy, hylen⟩

/-- Instrument.synthesize never raises on an instrument with at least one
note and nonnegative note times when the sample rate is at least 10 (so
that the fade_out buffer is nonempty); the waveform spans the largest note
end plus one second. -/
lemma inst_synthesize_some (envExp : ℕ → ℚ) (noteWave : ℕ → ℕ → ℚ)
    (fs : ℕ) (hfs : 10 ≤ fs) (i : Instrument) (hne : i.events ≠ [])
    (hev : ∀ n ∈ i.events, 0 ≤ n.start ∧ 0 ≤ n.end_) :
    ∃ w, Instrument.synthesize envExp noteWave fs i = some w ∧
      w.length = (ratTrunc ((fs : ℚ) * (maxEndOf i.events + 1))).toNat := by
  have hend : 0 ≤ maxEndOf i.events := maxEndOf_nonneg _
  have h0 : ¬ ratTrunc ((fs : ℚ) * (maxEndOf i.events + 1)) < 0 := by
    have h1 : (0 : ℚ) ≤ (fs : ℚ) * (maxEndOf i.events + 1) :=
      mul_nonneg (by positivity) (by linarith)
    have := ratTrunc_nonneg _ h1
    omega
  have hfl : (ratTrunc ((fs : ℚ) / 10)).toNat ≠ 0 := by
    have h1 : (1 : ℚ) ≤ (fs : ℚ) / 10 := by
      rw [le_div_iff₀ (by norm_num)]
      have : (10 : ℚ) ≤ (fs : ℚ) := by exact_mod_cast hfs
      linarith
    have h2 : (1 : ℤ) ≤ ratTrunc ((fs : ℚ) / 10) := by
      unfold ratTrunc
      rw [if_pos (by linarith)]
      exact Int.le_floor.mpr (by exact_mod_cast h1)
    omega
  simp only [Instrument.synthesize, if_neg hne, if_neg h0]
  cases hdrum : i.is_drum with
  | true => simp [hdrum]
  | false =>
      simp only [hdrum, Bool.false_eq_true, if_false]
      refine foldlM_some _
        (fun b : List ℚ =>
          b.length = (ratTrunc ((fs : ℚ) * (maxEndOf i.events + 1))).toNat)
        i.events _ (by simp) ?_
      intro buf note hbuf hmem
      obtain ⟨hst, hen⟩ := hev note hmem
      have hsn : ¬ (ratTrunc ((fs : ℚ) * note.start) < 0 ∨
          ratTrunc ((fs : ℚ) * note.end_) < 0) := by
        have h1 := ratTrunc_nonneg _ (mul_nonneg
          (by positivity : (0 : ℚ) ≤ (fs : ℚ)) hst)
        have h2 := ratTrunc_nonneg _ (mul_nonneg
          (by positivity : (0 : ℚ) ≤ (fs : ℚ)) hen)
        omega
      have heW : (ratTrunc ((fs : ℚ) * note.end_)).toNat ≤ buf.length := by
        rw [hbuf]
        have h1 : (fs : ℚ) * note.end_ ≤
            (fs : ℚ) * (maxEndOf i.events + 1) :=
          mul_le_mul_of_nonneg_left
            (by linarith [le_maxEndOf i.events note hmem]) (by positivity)
        have h2 := ratTrunc_le_ratTrunc _ _ (mul_nonneg
          (by positivity : (0 : ℚ) ≤ (fs : ℚ)) hen) h1
        omega
      obtain ⟨y, hy, hylen⟩ := synthStep_isSome envExp noteWave
        ((ratTrunc ((fs : ℚ) / 10)).toNat)
        (linspaceQ 1 0 ((ratTrunc ((fs : ℚ) / 10)).toNat))
        (linspaceQ_length 1 0 _) hfl buf note.pitch note.velocity
        ((ratTrunc ((fs : ℚ) * note.start)).toNat)
        ((ratTrunc ((fs : ℚ) * note.end_)).toNat) heW
      refine ⟨y, ?_, ?_⟩
      · simp only [if_neg hsn]
        exact hy
      · show y.length =
          (ratTrunc ((fs : ℚ) * (maxEndOf i.events + 1))).toNat
        rw [hylen, hbuf]

/-- Claim C8, amended: processing does not always complete — an empty track
(or no tracks) makes construction raise, and an empty instrument list makes
the aggregate queries raise — but under the documented input contract it
does: construction succeeds whenever every track is nonempty, every event
is in the parser's ranges (channels 0-15, pitches 0-127, outside which
current_instrument indexing raises), the resolution and every tempo BPM
are positive (a zero resolution or BPM divides by zero in
_get_tempo_changes), and the track-0 tempo events are tick-ordered without
conflicting simultaneous changes; the aggregate piano roll and chroma
succeed whenever the instrument list is nonempty and every instrument is
wellformed (nonempty, nonnegative times, in-range pitches, sorted bounded
bends); synthesis additionally needs a sample rate of at least 10 so the
fade-out buffer is nonempty.  Unmatched note-offs, retriggers and
misplaced tempo events are indeed tolerated non-fatally (they need no
hypothesis here). -/
theorem C8_amended :
    (∀ (res : ℕ) (track0 : Track) (rest : List Track),
      0 < res →
      (∀ b t, MidiEvent.setTempo b t ∈ track0 → 0 < b) →
      (∀ tr ∈ track0 :: rest, tr ≠ []) →
      (∀ tr ∈ track0 :: rest, ∀ e ∈ tr, e.inRange) →
      (tempoTicks track0).Pairwise tickOrd →
      (PrettyMIDI.mk? res (track0 :: rest)).isSome) ∧
    (∀ (pm : PrettyMIDI) (times : Option (List ℚ)),
      pm.instruments ≠ [] → (∀ i ∈ pm.instruments, i.wf) →
      (pm.get_piano_roll times).isSome ∧ (pm.get_chroma times).isSome) ∧
    (∀ (envExp : ℕ → ℚ) (noteWave : ℕ → ℕ → ℚ) (fs : ℕ)
      (pm : PrettyMIDI), 10 ≤ fs →
      pm.instruments ≠ [] → (∀ i ∈ pm.instruments, i.wf) →
      (pm.synthesize envExp noteWave fs).isSome) := by
  refine ⟨?_, ?_, ?_⟩
  · intro res track0 rest _hres _hbpm hall _hrange hpw
    have hcond : ¬ ((track0 :: rest).isEmpty = true ∨
        ((track0 :: rest).any fun tr => tr.isEmpty) = true) := by
      intro hc
      rcases hc with hc | hc
      · simp at hc
      · obtain ⟨tr, htr, hemp⟩ := List.any_eq_true.mp hc
        exact hall tr htr (by simpa using hemp)
    have hmax0 : maxTickOf (track0 :: rest) =
        some ((((track0 :: rest).map fun tr =>
          (tr.map MidiEvent.tick).foldl max 0).foldl max 0) + 1) := by
      unfold maxTickOf
      rw [if_neg hcond]
    obtain ⟨mt, hmax⟩ : ∃ mt, maxTickOf (track0 :: rest) = some mt :=
      ⟨_, hmax0⟩
    have hbound := tickScales_lt_maxTick res track0 rest mt hmax
    have hord := tickScalesOf_ordered res track0 hpw
    have hinv := tickScalesOf_inv res track0
    cases hts : tickScalesOf res track0 with
    | nil =>
        rw [hts] at hinv
        simp at hinv
    | cons x ts1 =>
        obtain ⟨x1, x2⟩ := x
        have hx1 : x1 = 0 := by
          have h1 := hinv.1
          rw [hts] at h1
          simpa using h1
        subst hx1
        rw [hts] at hord hbound
        obtain ⟨arr, harr, -, -⟩ :=
          updateTickToTime_spec x2 ts1 mt hord hbound
        rw [mk?_cons, hmax]
        simp [hts, harr]
  · intro pm times hne hwf
    refine ⟨get_piano_roll_pm_isSome pm times hne hwf, ?_⟩
    obtain ⟨roll, hroll⟩ := Option.isSome_iff_exists.mp
      (get_piano_roll_pm_isSome pm times hne hwf)
    simp only [PrettyMIDI.get_chroma]
    rw [hroll]
    rfl
  · intro envExp noteWave fs pm hfs hne hwf
    have h : ∀ i ∈ pm.instruments, ∃ w,
        Instrument.synthesize envExp noteWave fs i = some w ∧
          1 ≤ w.length := by
      intro i hi
      obtain ⟨w, hw, hwlen⟩ := inst_synthesize_some envExp noteWave fs hfs i
        (hwf i hi).1
        (fun n hn => ⟨((hwf i hi).2.1 n hn).1, ((hwf i hi).2.1 n hn).2.1⟩)
      refine ⟨w, hw, ?_⟩
      rw [hwlen]
      have := fs_le_synthLen fs (maxEndOf i.events) (maxEndOf_nonneg _)
      omega
    obtain ⟨mix, hpre, hlen⟩ := premix_some_of envExp noteWave fs pm h hne
    exact synthesize_isSome_of_premix envExp noteWave fs pm mix hpre
      (by
        intro h0
        rw [h0] at hlen
        simp at hlen)

/-- Claim C8 witness: construction on a concrete nonempty track, and the
aggregate piano roll and synthesis of a concrete one-note container. -/
theorem C8_amended_witness :
    (PrettyMIDI.mk? 1 [[MidiEvent.other 0]]).isSome ∧
    (PrettyMIDI.get_piano_roll
      ⟨1, [(0, 1/2)], [0], [⟨0, false, [⟨100, 60, 0, 0⟩], []⟩]⟩
      none).isSome ∧
    (PrettyMIDI.synthesize (fun _ => 1) (fun _ _ => 1) 10
      ⟨1, [(0, 1/2)], [0], [⟨0, false, [⟨100, 60, 0, 0⟩], []⟩]⟩).isSome := by
  have hwf : ∀ i ∈ (⟨1, [(0, 1/2)], [0],
      [⟨0, false, [⟨100, 60, 0, 0⟩], []⟩]⟩ : PrettyMIDI).instruments,
      i.wf := by
    intro i hi
    simp only [List.mem_singleton] at hi
    subst hi
    exact ⟨by decide, by with_unfolding_all decide, List.chain'_nil,
      by simp⟩
  refine ⟨C8_amended.1 1 [MidiEvent.other 0] [] (by norm_num) ?_ (by decide)
      (by decide) (by simp [tempoTicks]),
    (C8_amended.2.1 _ none (by decide) hwf).1,
    C8_amended.2.2 (fun _ => 1) (fun _ _ => 1) 10 _ (by norm_num)
      (by decide) hwf⟩
  intro b t hb
  simp at hb

end PMidi
